import Mathlib

/-!
Verification of the propagator-simulation engine of an NV-center spin
simulation program (sources: `qp-math.cpp`, `nv-math.cpp`, `nv-math.h`,
`nv-control.cpp`).

The development shallowly embeds the C++ sources into Lean:

* complex `MatrixXcd` operators of dimension `2^n` become
  `Matrix (Fin (2^n)) (Fin (2^n)) ℂ`;
* the bit-manipulation helpers `int_bit`, `qbit_state`, `bit_int` and the
  index-assembly loops of `act` / `ptrace` are translated literally
  (the imperative entry-fill of `act` writes each output entry exactly once
  for valid index lists, so it is rendered as a sum of guarded terms);
* the spin-clustering routines (`coupling_strength`, `cluster_nuclei`) are
  translated with the C++ worklist loop rendered as a fueled recursion
  (fuel `nuclei.length + 1` dominates the loop count, since the worklist
  holds pairwise-distinct indices below `nuclei.length`);
* the AXY pulse-timing routines (`axy_pulse_times`, `advanced_pulse_times`)
  are translated directly, with C `atan2(y,x)` rendered as `Complex.arg ⟨x,y⟩`;
* the two `simulate_propagator` overloads are translated with the cluster
  Hamiltonian passed as a parameter (`H`, respectively `Hof : ℝ → _` for the
  Hamiltonian evaluated at the control-field value at a given time, and the
  scalar `frequency_scale`), since the claims under scrutiny quantify over
  all clusters and fields; `exp(-j*H*t)` becomes `NormedSpace.exp ℂ` of the
  scaled matrix.

Physical constants from `constants.h` (not part of the analysed sources) are
modelled where needed; see the doc comments on `a0`.
-/

open scoped ComplexOrder

noncomputable section

namespace NV

/-- C++ `int_bit(num, n)`: the `n`-th binary digit of `num`
(`if(pow(2,n) > num) return 0; else return (num >> n) & 1;`). -/
def int_bit (num n : ℕ) : Bool := Nat.testBit num n

/-- C++ `qbit_state(q, N, s)`: state of qubit `q` (of `N`) in basis state `s`;
qubit `0` is the most significant bit. -/
def qbit_state (q N s : ℕ) : Bool := int_bit s (N - 1 - q)

/-- C++ `bit_int(q, N)`: the basis-state index with qubit `q` (of `N`) set. -/
def bit_int (q N : ℕ) : ℕ := 2 ^ (N - 1 - q)

/-- The index-assembly loop shared by `act` and `ptrace`: starting from `0`,
add `bit_int(ps[q], N)` for every `q < w` whose qubit state in `x` (read with
width `w`) is set.  In the C++ sources `w` is the length of `ps` (`act`) or
the number of kept qubits (`ptrace`). -/
def subIndexW (w : ℕ) (ps : List ℕ) (N x : ℕ) : ℕ :=
  ∑ q in Finset.range w, if qbit_state q w x then bit_int (ps.getD q 0) N else 0

/-- `subIndexW` with the width taken from the list itself, as in C++ `act`. -/
def subIndex (ps : List ℕ) (N x : ℕ) : ℕ := subIndexW ps.length ps N x

/-- The `qs_ignore` / `qs_keep` loop of C++ `act` / `ptrace`: the indices in
`0..N-1` not contained in `qs`, in ascending order. -/
def qs_ignore (qs : List ℕ) (N : ℕ) : List ℕ :=
  (List.range N).filter (fun i => decide (i ∉ qs))

/-- Totalised `Fin` constructor for basis-state indices.  The C++ code indexes
matrices unchecked; whenever its `assert`s hold the computed indices are in
range and the `% 2^N` is the identity. -/
def finTwoPow (N x : ℕ) : Fin (2 ^ N) :=
  ⟨x % 2 ^ N, Nat.mod_lt _ (Nat.two_pow_pos N)⟩

/-- C++ `act(A, qs_act, qbits_new)` from `qp-math.cpp`: embed the operator `A`
on qubits `qs_act` of a `qbits_new`-qubit system.  The imperative double loop
writes `A(m,n)` to `B(b_out, b_in)` for every setting `s` of the ignored
qubits; for valid (duplicate-free, in-range) `qs_act` every entry of `B` is
written exactly once, so the fill is rendered as a guarded sum.  (The
`do_nothing` shortcut of the source for `qs_act = 0,1,...,qbits_new-1` returns
`A` itself, which coincides with the general computation.) -/
def act (qs : List ℕ) (N : ℕ)
    (A : Matrix (Fin (2 ^ qs.length)) (Fin (2 ^ qs.length)) ℂ) :
    Matrix (Fin (2 ^ N)) (Fin (2 ^ N)) ℂ :=
  Matrix.of fun i j =>
    ∑ m : Fin (2 ^ qs.length), ∑ k : Fin (2 ^ qs.length),
      ∑ s : Fin (2 ^ (qs_ignore qs N).length),
        if subIndex qs N m.val + subIndex (qs_ignore qs N) N s.val = i.val ∧
            subIndex qs N k.val + subIndex (qs_ignore qs N) N s.val = j.val then
          A m k
        else 0

/-- C++ `ptrace(A, qs_trace)` from `qp-math.cpp`: partial trace of the
`N`-qubit operator `A` over the qubits `qs_trace`.  Entry `(m,k)` of the
result accumulates `A(a_out, a_in)` over all settings `s` of the traced
qubits, with the kept qubits (ascending order) carrying `m` resp. `k`. -/
def ptrace (N : ℕ) (tr : List ℕ) (A : Matrix (Fin (2 ^ N)) (Fin (2 ^ N)) ℂ) :
    Matrix (Fin (2 ^ (N - tr.length))) (Fin (2 ^ (N - tr.length))) ℂ :=
  Matrix.of fun m k =>
    ∑ s : Fin (2 ^ tr.length),
      A (finTwoPow N (subIndexW (N - tr.length) (qs_ignore tr N) N m.val +
            subIndex tr N s.val))
        (finTwoPow N (subIndexW (N - tr.length) (qs_ignore tr N) N k.val +
            subIndex tr N s.val))

/-! ### Bit-level facts about the index encoding -/

lemma testBit_two_pow_add_lt {i j : ℕ} (hij : i < j) (x : ℕ)
    (hx : Nat.testBit x i = false) :
    Nat.testBit (2 ^ i + x) j = Nat.testBit x j := by
  obtain ⟨d, rfl⟩ : ∃ d, j = (i + 1) + d := ⟨j - (i + 1), by omega⟩
  have h2 : (0 : ℕ) < 2 ^ (i + 1) := Nat.two_pow_pos _
  have hps : (2 : ℕ) ^ (i + 1) = 2 ^ i * 2 := pow_succ 2 i
  have hrb : Nat.testBit (x % 2 ^ (i + 1)) i = false := by
    rw [Nat.testBit_mod_two_pow]
    simp [hx]
  have hr : x % 2 ^ (i + 1) < 2 ^ i := by
    by_contra hge
    push_neg at hge
    have hlt : x % 2 ^ (i + 1) < 2 ^ (i + 1) := Nat.mod_lt _ h2
    have hdiv : x % 2 ^ (i + 1) / 2 ^ i = 1 :=
      Nat.div_eq_of_lt_le (by omega) (by omega)
    rw [Nat.testBit_to_div_mod, hdiv] at hrb
    simp at hrb
  have key : ∀ s, s < 2 ^ (i + 1) →
      (2 ^ (i + 1) * (x / 2 ^ (i + 1)) + s) / 2 ^ (i + 1 + d) =
        x / 2 ^ (i + 1) / 2 ^ d := by
    intro s hs
    rw [pow_add 2 (i + 1) d, ← Nat.div_div_eq_div_mul, Nat.mul_add_div h2,
      Nat.div_eq_of_lt hs, add_zero]
  have hds : 2 ^ i + x = 2 ^ (i + 1) * (x / 2 ^ (i + 1)) + (2 ^ i + x % 2 ^ (i + 1)) := by
    have := Nat.div_add_mod x (2 ^ (i + 1))
    omega
  rw [Nat.testBit_to_div_mod, Nat.testBit_to_div_mod, hds, key _ (by omega)]
  conv_rhs => rw [(Nat.div_add_mod x (2 ^ (i + 1))).symm]
  rw [key _ (Nat.mod_lt _ h2)]

lemma testBit_finsetSum (S : Finset ℕ) (j : ℕ) :
    Nat.testBit (∑ i in S, 2 ^ i) j = decide (j ∈ S) := by
  classical
  induction S using Finset.induction_on generalizing j with
  | empty => simp
  | @insert a S ha ih =>
    rw [Finset.sum_insert ha]
    have hrest : Nat.testBit (∑ i in S, 2 ^ i) a = false := by
      rw [ih]; simp [ha]
    rcases lt_trichotomy j a with h | rfl | h
    · rw [Nat.testBit_two_pow_add_gt h, ih]
      have : j ≠ a := by omega
      simp [Finset.mem_insert, this]
    · rw [Nat.testBit_two_pow_add_eq, hrest]
      simp
    · rw [testBit_two_pow_add_lt h _ hrest, ih]
      have : j ≠ a := by omega
      simp [Finset.mem_insert, this]

lemma finsetSum_two_pow_le {S : Finset ℕ} {N : ℕ} (hS : S ⊆ Finset.range N) :
    (∑ i in S, 2 ^ i) < 2 ^ N := by
  have hgeom : ∀ n : ℕ, (∑ i in Finset.range n, 2 ^ i) = 2 ^ n - 1 := by
    intro n
    induction n with
    | zero => simp
    | succ n ih =>
      have h2 : (2 : ℕ) ^ (n + 1) = 2 * 2 ^ n := by rw [pow_succ]; ring
      have h1 : (1 : ℕ) ≤ 2 ^ n := Nat.one_le_two_pow
      rw [Finset.sum_range_succ, ih]
      omega
  have hle : (∑ i in S, 2 ^ i) ≤ ∑ i in Finset.range N, 2 ^ i :=
    Finset.sum_le_sum_of_subset hS
  have h1 : (1 : ℕ) ≤ 2 ^ N := Nat.one_le_two_pow
  rw [hgeom] at hle
  omega

/-- The set of bit positions contributed by `subIndex ps N x`: position
`N - 1 - ps[q]` for every `q` whose qubit state in `x` is set. -/
def posSet (ps : List ℕ) (N x : ℕ) : Finset ℕ :=
  ((Finset.range ps.length).filter (fun q => qbit_state q ps.length x)).image
    (fun q => N - 1 - ps.getD q 0)

lemma getD_mem_of_lt {ps : List ℕ} {q : ℕ} (hq : q < ps.length) : ps.getD q 0 ∈ ps := by
  rw [List.getD_eq_getElem ps 0 hq]
  exact List.getElem_mem _

lemma getD_inj {ps : List ℕ} (hnd : ps.Nodup) {q q' : ℕ}
    (hq : q < ps.length) (hq' : q' < ps.length)
    (h : ps.getD q 0 = ps.getD q' 0) : q = q' := by
  rw [List.getD_eq_getElem ps 0 hq, List.getD_eq_getElem ps 0 hq'] at h
  exact (List.Nodup.getElem_inj_iff hnd).mp h

lemma subIndex_eq_sum {ps : List ℕ} {N : ℕ} (hnd : ps.Nodup)
    (hbd : ∀ a ∈ ps, a < N) (x : ℕ) :
    subIndex ps N x = ∑ i in posSet ps N x, 2 ^ i := by
  rw [posSet, Finset.sum_image, subIndex, subIndexW, Finset.sum_filter]
  · rfl
  · intro q hq q' hq' h
    rw [Finset.mem_filter, Finset.mem_range] at hq hq'
    have h1 : ps.getD q 0 < N := hbd _ (getD_mem_of_lt hq.1)
    have h2 : ps.getD q' 0 < N := hbd _ (getD_mem_of_lt hq'.1)
    exact getD_inj hnd hq.1 hq'.1 (by omega)

lemma mem_posSet {ps : List ℕ} {N x i : ℕ} :
    i ∈ posSet ps N x ↔
      ∃ q, q < ps.length ∧ qbit_state q ps.length x ∧ N - 1 - ps.getD q 0 = i := by
  simp only [posSet, Finset.mem_image, Finset.mem_filter, Finset.mem_range]
  constructor
  · rintro ⟨q, ⟨hq, hb⟩, hi⟩
    exact ⟨q, hq, hb, hi⟩
  · rintro ⟨q, hq, hb, hi⟩
    exact ⟨q, ⟨hq, hb⟩, hi⟩

lemma posSet_subset_range {ps : List ℕ} {N : ℕ} (hbd : ∀ a ∈ ps, a < N) (x : ℕ) :
    posSet ps N x ⊆ Finset.range N := by
  intro i hi
  obtain ⟨q, hq, _, hi⟩ := mem_posSet.mp hi
  have h1 : ps.getD q 0 < N := hbd _ (getD_mem_of_lt hq)
  rw [Finset.mem_range]
  omega

lemma subIndex_lt {ps : List ℕ} {N : ℕ} (hnd : ps.Nodup)
    (hbd : ∀ a ∈ ps, a < N) (x : ℕ) : subIndex ps N x < 2 ^ N := by
  rw [subIndex_eq_sum hnd hbd]
  exact finsetSum_two_pow_le (posSet_subset_range hbd x)

lemma pos_not_mem_posSet {ps₁ ps₂ : List ℕ} {N : ℕ}
    (hbd₁ : ∀ a ∈ ps₁, a < N) (hbd₂ : ∀ a ∈ ps₂, a < N)
    (hdisj : ∀ a ∈ ps₁, a ∉ ps₂) {q : ℕ} (hq : q < ps₁.length) (s : ℕ) :
    (N - 1 - ps₁.getD q 0) ∉ posSet ps₂ N s := by
  intro hmem
  obtain ⟨r, hr, _, hi⟩ := mem_posSet.mp hmem
  have h1 : ps₁.getD q 0 < N := hbd₁ _ (getD_mem_of_lt hq)
  have h2 : ps₂.getD r 0 < N := hbd₂ _ (getD_mem_of_lt hr)
  have h3 : ps₂.getD r 0 = ps₁.getD q 0 := by omega
  exact hdisj _ (getD_mem_of_lt hq) (h3 ▸ getD_mem_of_lt hr)

lemma posSet_disjoint {ps₁ ps₂ : List ℕ} {N : ℕ}
    (hbd₁ : ∀ a ∈ ps₁, a < N) (hbd₂ : ∀ a ∈ ps₂, a < N)
    (hdisj : ∀ a ∈ ps₁, a ∉ ps₂) (x s : ℕ) :
    Disjoint (posSet ps₁ N x) (posSet ps₂ N s) := by
  rw [Finset.disjoint_left]
  intro i h1 h2
  obtain ⟨q, hq, _, hi⟩ := mem_posSet.mp h1
  exact pos_not_mem_posSet hbd₁ hbd₂ hdisj hq s (hi ▸ h2)

lemma mem_posSet_index {ps : List ℕ} {N : ℕ} (hnd : ps.Nodup)
    (hbd : ∀ a ∈ ps, a < N) (x : ℕ) {q : ℕ} (hq : q < ps.length) :
    ((N - 1 - ps.getD q 0) ∈ posSet ps N x) = (qbit_state q ps.length x = true) := by
  rw [eq_iff_iff, mem_posSet]
  constructor
  · rintro ⟨q', hq', hb, hi⟩
    have h1 : ps.getD q 0 < N := hbd _ (getD_mem_of_lt hq)
    have h2 : ps.getD q' 0 < N := hbd _ (getD_mem_of_lt hq')
    have : q' = q := getD_inj hnd hq' hq (by omega)
    exact this ▸ hb
  · intro hb
    exact ⟨q, hq, hb, rfl⟩

/-- Injectivity of the joint index encoding used by `act` and `ptrace`:
indices written through two disjoint in-range position lists decompose
uniquely. -/
lemma subIndex_add_inj {ps₁ ps₂ : List ℕ} {N : ℕ}
    (hnd₁ : ps₁.Nodup) (hnd₂ : ps₂.Nodup)
    (hbd₁ : ∀ a ∈ ps₁, a < N) (hbd₂ : ∀ a ∈ ps₂, a < N)
    (hdisj : ∀ a ∈ ps₁, a ∉ ps₂)
    {x x' s s' : ℕ} (hx : x < 2 ^ ps₁.length) (hx' : x' < 2 ^ ps₁.length)
    (hs : s < 2 ^ ps₂.length) (hs' : s' < 2 ^ ps₂.length)
    (heq : subIndex ps₁ N x + subIndex ps₂ N s =
      subIndex ps₁ N x' + subIndex ps₂ N s') :
    x = x' ∧ s = s' := by
  have hdisj' : ∀ a ∈ ps₂, a ∉ ps₁ := fun a ha hb => hdisj a hb ha
  have hU : ∀ j : ℕ,
      (j ∈ posSet ps₁ N x ∪ posSet ps₂ N s) ↔
        (j ∈ posSet ps₁ N x' ∪ posSet ps₂ N s') := by
    intro j
    have h1 : Nat.testBit (subIndex ps₁ N x + subIndex ps₂ N s) j =
        Nat.testBit (subIndex ps₁ N x' + subIndex ps₂ N s') j := by rw [heq]
    rw [subIndex_eq_sum hnd₁ hbd₁, subIndex_eq_sum hnd₂ hbd₂,
      subIndex_eq_sum hnd₁ hbd₁, subIndex_eq_sum hnd₂ hbd₂,
      ← Finset.sum_union (posSet_disjoint hbd₁ hbd₂ hdisj x s),
      ← Finset.sum_union (posSet_disjoint hbd₁ hbd₂ hdisj x' s'),
      testBit_finsetSum, testBit_finsetSum] at h1
    exact decide_eq_decide.mp h1
  constructor
  · apply Nat.eq_of_testBit_eq
    intro b
    by_cases hb : b < ps₁.length
    · set q := ps₁.length - 1 - b with hqdef
      have hq : q < ps₁.length := by omega
      have hqb : ps₁.length - 1 - q = b := by omega
      have h2 := hU (N - 1 - ps₁.getD q 0)
      rw [Finset.mem_union, Finset.mem_union] at h2
      have h3 := pos_not_mem_posSet hbd₁ hbd₂ hdisj hq s
      have h3' := pos_not_mem_posSet hbd₁ hbd₂ hdisj hq s'
      have h4 := mem_posSet_index hnd₁ hbd₁ x hq
      have h4' := mem_posSet_index hnd₁ hbd₁ x' hq
      have h5 : (qbit_state q ps₁.length x = true) ↔
          (qbit_state q ps₁.length x' = true) := by
        rw [← h4, ← h4']
        constructor
        · intro h; rcases h2.mp (Or.inl h) with h | h
          · exact h
          · exact absurd h h3'
        · intro h; rcases h2.mpr (Or.inl h) with h | h
          · exact h
          · exact absurd h h3
      have h6 : qbit_state q ps₁.length x = qbit_state q ps₁.length x' := by
        rcases Bool.eq_false_or_eq_true (qbit_state q ps₁.length x) with h | h <;>
          rcases Bool.eq_false_or_eq_true (qbit_state q ps₁.length x') with h' | h' <;>
            simp_all
      simp only [qbit_state, int_bit, hqb] at h6
      exact h6
    · rw [Nat.testBit_lt_two_pow, Nat.testBit_lt_two_pow]
      · exact lt_of_lt_of_le hx' (Nat.pow_le_pow_right (by norm_num) (by omega))
      · exact lt_of_lt_of_le hx (Nat.pow_le_pow_right (by norm_num) (by omega))
  · apply Nat.eq_of_testBit_eq
    intro b
    by_cases hb : b < ps₂.length
    · set q := ps₂.length - 1 - b with hqdef
      have hq : q < ps₂.length := by omega
      have hqb : ps₂.length - 1 - q = b := by omega
      have h2 := hU (N - 1 - ps₂.getD q 0)
      rw [Finset.mem_union, Finset.mem_union] at h2
      have h3 := pos_not_mem_posSet hbd₂ hbd₁ hdisj' hq x
      have h3' := pos_not_mem_posSet hbd₂ hbd₁ hdisj' hq x'
      have h4 := mem_posSet_index hnd₂ hbd₂ s hq
      have h4' := mem_posSet_index hnd₂ hbd₂ s' hq
      have h5 : (qbit_state q ps₂.length s = true) ↔
          (qbit_state q ps₂.length s' = true) := by
        rw [← h4, ← h4']
        constructor
        · intro h; rcases h2.mp (Or.inr h) with h | h
          · exact absurd h h3'
          · exact h
        · intro h; rcases h2.mpr (Or.inr h) with h | h
          · exact absurd h h3
          · exact h
      have h6 : qbit_state q ps₂.length s = qbit_state q ps₂.length s' := by
        rcases Bool.eq_false_or_eq_true (qbit_state q ps₂.length s) with h | h <;>
          rcases Bool.eq_false_or_eq_true (qbit_state q ps₂.length s') with h' | h' <;>
            simp_all
      simp only [qbit_state, int_bit, hqb] at h6
      exact h6
    · rw [Nat.testBit_lt_two_pow, Nat.testBit_lt_two_pow]
      · exact lt_of_lt_of_le hs' (Nat.pow_le_pow_right (by norm_num) (by omega))
      · exact lt_of_lt_of_le hs (Nat.pow_le_pow_right (by norm_num) (by omega))

lemma subIndex_add_lt {ps₁ ps₂ : List ℕ} {N : ℕ}
    (hnd₁ : ps₁.Nodup) (hnd₂ : ps₂.Nodup)
    (hbd₁ : ∀ a ∈ ps₁, a < N) (hbd₂ : ∀ a ∈ ps₂, a < N)
    (hdisj : ∀ a ∈ ps₁, a ∉ ps₂) (x s : ℕ) :
    subIndex ps₁ N x + subIndex ps₂ N s < 2 ^ N := by
  rw [subIndex_eq_sum hnd₁ hbd₁, subIndex_eq_sum hnd₂ hbd₂,
    ← Finset.sum_union (posSet_disjoint hbd₁ hbd₂ hdisj x s)]
  exact finsetSum_two_pow_le
    (Finset.union_subset (posSet_subset_range hbd₁ x) (posSet_subset_range hbd₂ s))

/-! ### Properties of `qs_ignore` -/

lemma mem_qs_ignore {qs : List ℕ} {N a : ℕ} :
    a ∈ qs_ignore qs N ↔ a < N ∧ a ∉ qs := by
  simp [qs_ignore, List.mem_filter, List.mem_range]

lemma qs_ignore_nodup (qs : List ℕ) (N : ℕ) : (qs_ignore qs N).Nodup :=
  (List.nodup_range N).filter _

lemma qs_ignore_bd {qs : List ℕ} {N : ℕ} : ∀ a ∈ qs_ignore qs N, a < N :=
  fun _ ha => (mem_qs_ignore.mp ha).1

lemma qs_ignore_disj {qs : List ℕ} {N : ℕ} : ∀ a ∈ qs, a ∉ qs_ignore qs N :=
  fun a ha hmem => (mem_qs_ignore.mp hmem).2 ha

lemma length_filter_add_length_filter_not {α : Type*} (p : α → Bool) (l : List α) :
    (l.filter p).length + (l.filter (fun a => !(p a))).length = l.length := by
  induction l with
  | nil => simp
  | cons a l ih =>
    by_cases h : p a <;> simp [List.filter_cons, h, ← ih] <;> omega

lemma qs_ignore_length {qs : List ℕ} {N : ℕ} (hnd : qs.Nodup)
    (hbd : ∀ a ∈ qs, a < N) :
    (qs_ignore qs N).length = N - qs.length ∧ qs.length ≤ N := by
  have hperm : ((List.range N).filter (fun i => decide (i ∈ qs))).Perm qs := by
    rw [List.perm_ext_iff_of_nodup ((List.nodup_range N).filter _) hnd]
    intro a
    simp only [List.mem_filter, List.mem_range, decide_eq_true_eq]
    exact ⟨fun h => h.2, fun h => ⟨hbd a h, h⟩⟩
  have hlen : ((List.range N).filter (fun i => decide (i ∈ qs))).length = qs.length :=
    hperm.length_eq
  have hsplit := length_filter_add_length_filter_not
    (fun i => decide (i ∈ qs)) (List.range N)
  have hig : qs_ignore qs N =
      (List.range N).filter (fun a => !(decide (a ∈ qs))) := by
    rw [qs_ignore]
    apply List.filter_congr
    intro a _
    simp
  rw [hig]
  rw [hlen, List.length_range] at hsplit
  omega

/-- For a strictly sorted in-range list, taking the ignored complement twice
gives the list back (the `qs_keep` of `ptrace` recovers `qs_act` of `act`). -/
lemma qs_ignore_qs_ignore {qs : List ℕ} {N : ℕ} (hsort : List.Sorted (· < ·) qs)
    (hbd : ∀ a ∈ qs, a < N) :
    qs_ignore (qs_ignore qs N) N = qs := by
  have hnd : qs.Nodup := hsort.nodup
  have h1 : qs_ignore (qs_ignore qs N) N =
      (List.range N).filter (fun i => decide (i ∈ qs)) := by
    rw [qs_ignore]
    apply List.filter_congr
    intro a ha
    rw [List.mem_range] at ha
    by_cases h : a ∈ qs
    · simp [mem_qs_ignore, ha, h]
    · simp [mem_qs_ignore, ha, h]
  rw [h1]
  haveI : IsAntisymm ℕ (· < ·) := ⟨fun a b h h' => absurd h' (lt_asymm h)⟩
  apply List.eq_of_perm_of_sorted ?_ ?_ hsort
  · rw [List.perm_ext_iff_of_nodup ((List.nodup_range N).filter _) hnd]
    intro a
    simp only [List.mem_filter, List.mem_range, decide_eq_true_eq]
    exact ⟨fun h => h.2, fun h => ⟨hbd a h, h⟩⟩
  · exact (List.pairwise_lt_range N).filter _

lemma subIndexW_width_eq {w : ℕ} {ps : List ℕ} (h : w = ps.length) (N x : ℕ) :
    subIndexW w ps N x = subIndex ps N x := by
  rw [subIndex, h]

lemma finTwoPow_eq_of_lt {N x : ℕ} (h : x < 2 ^ N) : finTwoPow N x = ⟨x, h⟩ := by
  simp only [finTwoPow, Nat.mod_eq_of_lt h]

/-- The joint index encoding as a bijection between split and whole index
sets, with the exponents given by arbitrary naturals equal to the lengths. -/
lemma subIndex_add_bijective {ps₁ ps₂ : List ℕ} {N a b : ℕ}
    (hnd₁ : ps₁.Nodup) (hnd₂ : ps₂.Nodup)
    (hbd₁ : ∀ x ∈ ps₁, x < N) (hbd₂ : ∀ x ∈ ps₂, x < N)
    (hdisj : ∀ x ∈ ps₁, x ∉ ps₂)
    (ha : a = ps₁.length) (hb : b = ps₂.length) (hab : a + b = N) :
    Function.Bijective (fun p : Fin (2 ^ a) × Fin (2 ^ b) =>
      (⟨subIndex ps₁ N p.1.val + subIndex ps₂ N p.2.val,
        subIndex_add_lt hnd₁ hnd₂ hbd₁ hbd₂ hdisj _ _⟩ : Fin (2 ^ N))) := by
  subst ha hb
  rw [Fintype.bijective_iff_injective_and_card]
  constructor
  · rintro ⟨x, s⟩ ⟨x', s'⟩ h
    rw [Fin.mk.injEq] at h
    obtain ⟨h1, h2⟩ := subIndex_add_inj hnd₁ hnd₂ hbd₁ hbd₂ hdisj
      x.isLt x'.isLt s.isLt s'.isLt h
    simp only [Prod.mk.injEq]
    exact ⟨Fin.ext h1, Fin.ext h2⟩
  · simp only [Fintype.card_prod, Fintype.card_fin]
    rw [← pow_add, hab]

/-- Evaluation of `act` on encoded indices: the embedded operator acts as `A`
on the target qubits and as the identity on the ignored qubits. -/
lemma act_apply {qs : List ℕ} {N : ℕ} (hnd : qs.Nodup) (hbd : ∀ a ∈ qs, a < N)
    (A : Matrix (Fin (2 ^ qs.length)) (Fin (2 ^ qs.length)) ℂ)
    (x y : Fin (2 ^ qs.length)) (s t : Fin (2 ^ (qs_ignore qs N).length)) :
    act qs N A
      ⟨subIndex qs N x.val + subIndex (qs_ignore qs N) N s.val,
        subIndex_add_lt hnd (qs_ignore_nodup qs N) hbd qs_ignore_bd qs_ignore_disj _ _⟩
      ⟨subIndex qs N y.val + subIndex (qs_ignore qs N) N t.val,
        subIndex_add_lt hnd (qs_ignore_nodup qs N) hbd qs_ignore_bd qs_ignore_disj _ _⟩ =
    if s = t then A x y else 0 := by
  have hcond : ∀ (m k : Fin (2 ^ qs.length)) (u : Fin (2 ^ (qs_ignore qs N).length)),
      (subIndex qs N m.val + subIndex (qs_ignore qs N) N u.val =
          subIndex qs N x.val + subIndex (qs_ignore qs N) N s.val ∧
        subIndex qs N k.val + subIndex (qs_ignore qs N) N u.val =
          subIndex qs N y.val + subIndex (qs_ignore qs N) N t.val) ↔
      (m = x ∧ (k = y ∧ (u = s ∧ u = t))) := by
    intro m k u
    constructor
    · rintro ⟨h1, h2⟩
      obtain ⟨hm, hu⟩ := subIndex_add_inj hnd (qs_ignore_nodup qs N) hbd
        qs_ignore_bd qs_ignore_disj m.isLt x.isLt u.isLt s.isLt h1
      obtain ⟨hk, hu'⟩ := subIndex_add_inj hnd (qs_ignore_nodup qs N) hbd
        qs_ignore_bd qs_ignore_disj k.isLt y.isLt u.isLt t.isLt h2
      exact ⟨Fin.ext hm, Fin.ext hk, Fin.ext hu, Fin.ext hu'⟩
    · rintro ⟨rfl, rfl, rfl, rfl⟩
      exact ⟨rfl, rfl⟩
  show (∑ m : Fin (2 ^ qs.length), ∑ k : Fin (2 ^ qs.length),
      ∑ u : Fin (2 ^ (qs_ignore qs N).length), _) = _
  have hrw : ∀ (m k : Fin (2 ^ qs.length)) (u : Fin (2 ^ (qs_ignore qs N).length)),
      (if subIndex qs N m.val + subIndex (qs_ignore qs N) N u.val =
          subIndex qs N x.val + subIndex (qs_ignore qs N) N s.val ∧
        subIndex qs N k.val + subIndex (qs_ignore qs N) N u.val =
          subIndex qs N y.val + subIndex (qs_ignore qs N) N t.val then A m k else 0) =
      if m = x then (if k = y then (if u = s then (if u = t then A m k else 0)
        else 0) else 0) else 0 := by
    intro m k u
    rw [if_congr (hcond m k u) rfl rfl, ite_and, ite_and, ite_and]
  simp_rw [hrw]
  simp only [Finset.sum_ite_irrel, Finset.sum_const_zero, Finset.sum_ite_eq',
    Finset.mem_univ, if_true]

/-- C10: for every square operator of dimension `2^N` and every duplicate-free
list of traced qubit indices drawn from `{0..N-1}`, the partial trace
preserves the total trace: `trace(ptrace(A, qs_trace)) = trace(A)`. -/
theorem ptrace_preserves_trace {N : ℕ} (tr : List ℕ) (hnd : tr.Nodup)
    (hbd : ∀ a ∈ tr, a < N) (A : Matrix (Fin (2 ^ N)) (Fin (2 ^ N)) ℂ) :
    Matrix.trace (ptrace N tr A) = Matrix.trace A := by
  obtain ⟨hklen, hle⟩ := qs_ignore_length hnd hbd
  have hwidth : N - tr.length = (qs_ignore tr N).length := hklen.symm
  have hdisj : ∀ a ∈ qs_ignore tr N, a ∉ tr := fun a ha => (mem_qs_ignore.mp ha).2
  have hab : (N - tr.length) + tr.length = N := by omega
  have hbij := subIndex_add_bijective (qs_ignore_nodup tr N) hnd qs_ignore_bd hbd
    hdisj hwidth rfl hab
  calc Matrix.trace (ptrace N tr A)
      = ∑ p : Fin (2 ^ (N - tr.length)) × Fin (2 ^ tr.length),
          A ⟨subIndex (qs_ignore tr N) N p.1.val + subIndex tr N p.2.val,
              subIndex_add_lt (qs_ignore_nodup tr N) hnd qs_ignore_bd hbd hdisj _ _⟩
            ⟨subIndex (qs_ignore tr N) N p.1.val + subIndex tr N p.2.val,
              subIndex_add_lt (qs_ignore_nodup tr N) hnd qs_ignore_bd hbd hdisj _ _⟩ := by
        simp only [Matrix.trace, Matrix.diag, ptrace, Matrix.of_apply]
        simp_rw [subIndexW_width_eq hwidth,
          finTwoPow_eq_of_lt (subIndex_add_lt (qs_ignore_nodup tr N) hnd qs_ignore_bd
            hbd hdisj _ _)]
        rw [Fintype.sum_prod_type]
    _ = Matrix.trace A := by
        rw [Matrix.trace]
        exact Fintype.sum_bijective _ hbij _ _ (fun p => rfl)

/-- Closed witness for C10 at a concrete input: tracing out qubit 0 of a
concrete two-qubit operator preserves the trace. -/
theorem ptrace_preserves_trace_witness :
    Matrix.trace (ptrace 2 [0]
      (Matrix.of fun i j : Fin (2 ^ 2) => ((i.val : ℂ) + 7 * j.val))) =
    Matrix.trace (Matrix.of fun i j : Fin (2 ^ 2) => ((i.val : ℂ) + 7 * j.val)) :=
  ptrace_preserves_trace [0] (by decide) (by decide) _

/-- The actual value of the `ptrace`/`act` round trip: tracing the embedded
operator over the complement of a sorted target list recovers `A` scaled by
`2^(number of traced qubits)` (one unit of trace for every setting of each
ignored qubit). -/
lemma ptrace_act_eq {qs : List ℕ} {N : ℕ} (hsort : List.Sorted (· < ·) qs)
    (hbd : ∀ a ∈ qs, a < N)
    (hd : 2 ^ (N - (qs_ignore qs N).length) = 2 ^ qs.length)
    (A : Matrix (Fin (2 ^ qs.length)) (Fin (2 ^ qs.length)) ℂ)
    (i j : Fin (2 ^ (N - (qs_ignore qs N).length))) :
    ptrace N (qs_ignore qs N) (act qs N A) i j =
      (2 ^ (N - qs.length) : ℂ) * A (Fin.cast hd i) (Fin.cast hd j) := by
  have hnd : qs.Nodup := hsort.nodup
  obtain ⟨hilen, hle⟩ := qs_ignore_length hnd hbd
  have hkeep : qs_ignore (qs_ignore qs N) N = qs := qs_ignore_qs_ignore hsort hbd
  have hwidth : N - (qs_ignore qs N).length = qs.length := by omega
  simp only [ptrace, Matrix.of_apply]
  simp_rw [hkeep, subIndexW_width_eq hwidth,
    finTwoPow_eq_of_lt (subIndex_add_lt hnd (qs_ignore_nodup qs N) hbd qs_ignore_bd
      qs_ignore_disj _ _)]
  have hterm : ∀ s : Fin (2 ^ (qs_ignore qs N).length),
      act qs N A
        ⟨subIndex qs N i.val + subIndex (qs_ignore qs N) N s.val,
          subIndex_add_lt hnd (qs_ignore_nodup qs N) hbd qs_ignore_bd
            qs_ignore_disj _ _⟩
        ⟨subIndex qs N j.val + subIndex (qs_ignore qs N) N s.val,
          subIndex_add_lt hnd (qs_ignore_nodup qs N) hbd qs_ignore_bd
            qs_ignore_disj _ _⟩ =
      A (Fin.cast hd i) (Fin.cast hd j) := by
    intro s
    have h := act_apply hnd hbd A (Fin.cast hd i) (Fin.cast hd j) s s
    simpa [Fin.coe_cast] using h
  simp_rw [hterm]
  rw [Finset.sum_const, Finset.card_univ, Fintype.card_fin, nsmul_eq_mul]
  have h2 : ((2 ^ (qs_ignore qs N).length : ℕ) : ℂ) = 2 ^ (N - qs.length) := by
    rw [hilen]; push_cast; ring
  rw [h2]

/-- C3 counterexample: at the concrete input `A = 1` (one qubit), target list
`[0]`, total qubit count `2`, the round trip `ptrace(act(A,[0],2), complement)`
does NOT return `A`: the partial trace scales by `2^(traced qubits)`. -/
theorem act_ptrace_roundtrip_counterexample :
    ptrace 2 (qs_ignore [0] 2)
        (act [0] 2 (1 : Matrix (Fin (2 ^ ([0] : List ℕ).length))
          (Fin (2 ^ ([0] : List ℕ).length)) ℂ)) ≠
      (1 : Matrix (Fin (2 ^ (2 - (qs_ignore ([0] : List ℕ) 2).length)))
        (Fin (2 ^ (2 - (qs_ignore ([0] : List ℕ) 2).length))) ℂ) := by
  intro h
  have hd : (2 : ℕ) ^ (2 - (qs_ignore ([0] : List ℕ) 2).length) =
      2 ^ ([0] : List ℕ).length := by decide
  have hkey := @ptrace_act_eq [0] 2 (by simp) (by decide) hd 1
    ⟨0, by decide⟩ ⟨0, by decide⟩
  rw [h] at hkey
  rw [Matrix.one_apply_eq, Matrix.one_apply_eq] at hkey
  norm_num at hkey

/-- C3 (amended): for a strictly increasing (hence duplicate-free) list of
`m` target indices drawn from `{0..N-1}`, partially tracing the embedded
operator `act(A, idx, N)` over the complement index set returns `A` scaled by
`2^(N-m)` (not `A` itself): `ptrace(act(A,idx,N), complement(idx)) =
2^(N-m) * A`. -/
theorem act_ptrace_roundtrip_scaled {qs : List ℕ} {N : ℕ}
    (hsort : List.Sorted (· < ·) qs) (hbd : ∀ a ∈ qs, a < N)
    (hd : 2 ^ (N - (qs_ignore qs N).length) = 2 ^ qs.length)
    (A : Matrix (Fin (2 ^ qs.length)) (Fin (2 ^ qs.length)) ℂ)
    (i j : Fin (2 ^ (N - (qs_ignore qs N).length))) :
    ptrace N (qs_ignore qs N) (act qs N A) i j =
      (2 ^ (N - qs.length) : ℂ) * A (Fin.cast hd i) (Fin.cast hd j) :=
  ptrace_act_eq hsort hbd hd A i j

/-- Closed witness for the amended C3 at a concrete input. -/
theorem act_ptrace_roundtrip_scaled_witness :
    ptrace 2 (qs_ignore [0] 2)
        (act [0] 2 (1 : Matrix (Fin (2 ^ ([0] : List ℕ).length))
          (Fin (2 ^ ([0] : List ℕ).length)) ℂ))
        ⟨0, by decide⟩ ⟨1, by decide⟩ =
      (2 ^ (2 - ([0] : List ℕ).length) : ℂ) *
        (1 : Matrix (Fin (2 ^ ([0] : List ℕ).length))
          (Fin (2 ^ ([0] : List ℕ).length)) ℂ)
          (Fin.cast (show (2 : ℕ) ^ (2 - (qs_ignore ([0] : List ℕ) 2).length) =
              2 ^ ([0] : List ℕ).length by decide) ⟨0, by decide⟩)
          (Fin.cast (show (2 : ℕ) ^ (2 - (qs_ignore ([0] : List ℕ) 2).length) =
              2 ^ ([0] : List ℕ).length by decide) ⟨1, by decide⟩) :=
  act_ptrace_roundtrip_scaled (by simp) (by decide) (by decide) 1
    ⟨0, by decide⟩ ⟨1, by decide⟩

/-! ### Spin clustering (`nv-math.cpp`, lines 86-127) -/

/-- 3-vector dot product (`Vector3d::dot`). -/
def dot3 (a b : Fin 3 → ℝ) : ℝ := a 0 * b 0 + a 1 * b 1 + a 2 * b 2

/-- Euclidean norm of a 3-vector (`Vector3d::norm`). -/
def norm3 (a : Fin 3 → ℝ) : ℝ := Real.sqrt (dot3 a a)

/-- `hat(v) = v / v.norm()` from the headers. -/
def hat (v : Fin 3 → ℝ) : Fin 3 → ℝ := fun i => v i / norm3 v

/-- Diamond lattice vector `ao = (1,1,1)/4` from `nv-math.h`. -/
def ao : Fin 3 → ℝ := fun i => ![1 / 4, 1 / 4, 1 / 4] i

/-- Unit vector `zhat = (1,1,1)/√3` from `nv-math.h`. -/
def zhat : Fin 3 → ℝ := fun i => ![1 / Real.sqrt 3, 1 / Real.sqrt 3, 1 / Real.sqrt 3] i

/-- Modelled from the spec: `constants.h` is not among the analysed sources;
`a0` is the diamond lattice constant ("physical constant tables and
lattice-geometry constants" are out of scope), entering `coupling_strength`
only as a positive length scale.  Modelled as `1`. -/
def a0 : ℝ := 1

/-- C++ `spin` struct: position, gyromagnetic ratio, spin operator vector.
The operator vector plays no role in coupling strengths but is kept to
mirror the data model. -/
structure spin where
  pos : Fin 3 → ℝ
  g : ℝ
  S : Fin 3 → Matrix (Fin 2) (Fin 2) ℂ

/-- Junk value used to totalise `vector::at` style indexing (the C++ indexing
is in range whenever its callers' invariants hold). -/
def spinDefault : spin := ⟨fun _ => 0, 0, fun _ => 0⟩

/-- C++ `coupling_strength(s1, s2)` from `nv-math.cpp`:
`abs(s1.g*s2.g/(8*pi*pow(r.norm()*a0,3)) * (1 - 3*dot(hat(r),zhat)*dot(hat(r),zhat)))`
with `r = s2.pos - s1.pos`. -/
def coupling_strength (s1 s2 : spin) : ℝ :=
  |s1.g * s2.g /
      (8 * Real.pi * (norm3 (fun i => s2.pos i - s1.pos i) * a0) ^ (3 : ℕ)) *
    (1 - 3 * dot3 (hat (fun i => s2.pos i - s1.pos i)) zhat *
      dot3 (hat (fun i => s2.pos i - s1.pos i)) zhat)|

lemma coupling_strength_symm (s1 s2 : spin) :
    coupling_strength s1 s2 = coupling_strength s2 s1 := by
  unfold coupling_strength
  have hnorm : norm3 (fun i => s1.pos i - s2.pos i) =
      norm3 (fun i => s2.pos i - s1.pos i) := by
    unfold norm3 dot3
    congr 1
    ring
  unfold hat
  rw [hnorm]
  apply congrArg abs
  unfold dot3
  ring

/-- Inner scan of `cluster_nuclei`: for cluster member `a`, absorb every not
yet clustered index `k` with `a+1 ≤ k < nuclei.length` whose coupling to `a`
reaches the threshold; state is `(cluster, clustered)`. -/
def scanFrom (nuclei : List spin) (minc : ℝ) (a : ℕ)
    (st : List ℕ × List ℕ) : List ℕ × List ℕ :=
  (List.range' (a + 1) (nuclei.length - (a + 1))).foldl
    (fun st k =>
      if k ∉ st.2 ∧ minc ≤ coupling_strength (nuclei.getD a spinDefault)
          (nuclei.getD k spinDefault)
      then (st.1 ++ [k], st.2 ++ [k]) else st) st

/-- Worklist loop of `cluster_nuclei`
(`for(uint ci = 0; ci < cluster.size(); ci++)`), rendered with fuel: the
worklist holds pairwise-distinct indices below `nuclei.length`, so
`nuclei.length + 1` units of fuel always complete the loop. -/
def growLoop (nuclei : List spin) (minc : ℝ) :
    ℕ → ℕ → List ℕ × List ℕ → List ℕ × List ℕ
  | 0, _, st => st
  | fuel + 1, ci, st =>
    if ci < st.1.length then
      growLoop nuclei minc fuel (ci + 1) (scanFrom nuclei minc (st.1.getD ci 0) st)
    else st

/-- Body of the outer loop of `cluster_nuclei`: skip seeds that are already
clustered, otherwise grow a new cluster from the seed through the worklist
loop and append it. -/
def clusterStep (nuclei : List spin) (minc : ℝ) :
    List (List ℕ) × List ℕ → ℕ → List (List ℕ) × List ℕ :=
  fun acc i =>
    if i ∈ acc.2 then acc
    else
      (acc.1 ++ [(growLoop nuclei minc (nuclei.length + 1) 0 ([i], acc.2 ++ [i])).1],
        (growLoop nuclei minc (nuclei.length + 1) 0 ([i], acc.2 ++ [i])).2)

/-- C++ `cluster_nuclei(nuclei, min_coupling_strength)` from `nv-math.cpp`:
greedy clustering, scanning seeds in ascending index order and growing each
new cluster through the worklist loop. -/
def cluster_nuclei (nuclei : List spin) (minc : ℝ) : List (List ℕ) :=
  ((List.range nuclei.length).foldl (clusterStep nuclei minc)
    (([], []) : List (List ℕ) × List ℕ)).1

/-- The coupling graph of the spec: an edge joins two distinct in-range
indices whose coupling strength reaches the threshold. -/
def couples (nuclei : List spin) (minc : ℝ) (a b : ℕ) : Prop :=
  a ≠ b ∧ a < nuclei.length ∧ b < nuclei.length ∧
    minc ≤ coupling_strength (nuclei.getD a spinDefault) (nuclei.getD b spinDefault)

/-- Graph connectivity in the coupling graph (reflexive-transitive closure),
the spec-side notion `cluster_nuclei` is claimed to compute. -/
def connected (nuclei : List spin) (minc : ℝ) (a b : ℕ) : Prop :=
  Relation.ReflTransGen (couples nuclei minc) a b

lemma couples_symm (nuclei : List spin) (minc : ℝ) :
    Symmetric (couples nuclei minc) := by
  rintro a b ⟨hne, ha, hb, hc⟩
  exact ⟨hne.symm, hb, ha, (coupling_strength_symm _ _) ▸ hc⟩

lemma connected_symm (nuclei : List spin) (minc : ℝ) :
    Symmetric (connected nuclei minc) :=
  Relation.ReflTransGen.symmetric (couples_symm nuclei minc)

lemma scanAux_spec (ns : List spin) (t : ℝ) (a : ℕ) :
    ∀ (L : List ℕ) (c d : List ℕ),
    ∃ new, (L.foldl (fun st k =>
        if k ∉ st.2 ∧ t ≤ coupling_strength (ns.getD a spinDefault)
            (ns.getD k spinDefault)
        then (st.1 ++ [k], st.2 ++ [k]) else st) (c, d)) = (c ++ new, d ++ new) ∧
      new.Nodup ∧ ∀ k ∈ new, k ∈ L ∧ k ∉ d ∧
        t ≤ coupling_strength (ns.getD a spinDefault) (ns.getD k spinDefault) := by
  intro L
  induction L with
  | nil =>
    intro c d
    exact ⟨[], by simp, List.nodup_nil, by simp⟩
  | cons k L ih =>
    intro c d
    rw [List.foldl_cons]
    by_cases hk : k ∉ d ∧ t ≤ coupling_strength (ns.getD a spinDefault)
        (ns.getD k spinDefault)
    · rw [if_pos hk]
      obtain ⟨new, heq, hnd, hmem⟩ := ih (c ++ [k]) (d ++ [k])
      refine ⟨k :: new, ?_, ?_, ?_⟩
      · rw [heq]
        simp
      · rw [List.nodup_cons]
        refine ⟨fun hkm => ?_, hnd⟩
        have := (hmem k hkm).2.1
        simp at this
      · intro x hx
        rcases List.mem_cons.mp hx with rfl | hx
        · exact ⟨List.mem_cons_self _ _, hk.1, hk.2⟩
        · obtain ⟨hxL, hxd, hxc⟩ := hmem x hx
          refine ⟨List.mem_cons_of_mem _ hxL, fun hxd2 => hxd ?_, hxc⟩
          simp [hxd2]
    · rw [if_neg hk]
      obtain ⟨new, heq, hnd, hmem⟩ := ih c d
      exact ⟨new, heq, hnd, fun x hx =>
        ⟨List.mem_cons_of_mem _ (hmem x hx).1, (hmem x hx).2.1, (hmem x hx).2.2⟩⟩

lemma scanFrom_spec (ns : List spin) (t : ℝ) (a : ℕ) (c d : List ℕ) :
    ∃ new, scanFrom ns t a (c, d) = (c ++ new, d ++ new) ∧
      new.Nodup ∧ ∀ k ∈ new, (a + 1 ≤ k ∧ k < ns.length) ∧ k ∉ d ∧
        t ≤ coupling_strength (ns.getD a spinDefault) (ns.getD k spinDefault) := by
  obtain ⟨new, heq, hnd, hmem⟩ :=
    scanAux_spec ns t a (List.range' (a + 1) (ns.length - (a + 1))) c d
  refine ⟨new, heq, hnd, fun k hk => ?_⟩
  obtain ⟨hkL, hkd, hkc⟩ := hmem k hk
  rw [List.mem_range'_1] at hkL
  exact ⟨⟨by omega, by omega⟩, hkd, hkc⟩

lemma growLoop_spec (ns : List spin) (t : ℝ) (i : ℕ) :
    ∀ (fuel ci : ℕ) (c d : List ℕ),
    d.Nodup → (∀ x ∈ d, x < ns.length) → (∀ x ∈ c, x < ns.length) →
    (∀ x ∈ c, connected ns t i x) →
    ∃ new, growLoop ns t fuel ci (c, d) = (c ++ new, d ++ new) ∧
      (d ++ new).Nodup ∧ (∀ x ∈ new, x < ns.length) ∧
      (∀ x ∈ c ++ new, connected ns t i x) := by
  intro fuel
  induction fuel with
  | zero =>
    intro ci c d hd hdN hcN hconn
    exact ⟨[], by simp [growLoop], by simpa, by simp, by simpa⟩
  | succ fuel ih =>
    intro ci c d hd hdN hcN hconn
    simp only [growLoop]
    by_cases hci : ci < c.length
    · rw [if_pos hci]
      have haC : c.getD ci 0 ∈ c := getD_mem_of_lt hci
      have haN : c.getD ci 0 < ns.length := hcN _ haC
      have haconn : connected ns t i (c.getD ci 0) := hconn _ haC
      obtain ⟨n1, hsc, hnd1, hmem1⟩ := scanFrom_spec ns t (c.getD ci 0) c d
      rw [hsc]
      have hd' : (d ++ n1).Nodup := by
        rw [List.nodup_append]
        exact ⟨hd, hnd1, fun x hx hx1 => (hmem1 x hx1).2.1 hx⟩
      have hdN' : ∀ x ∈ d ++ n1, x < ns.length := by
        intro x hx
        rcases List.mem_append.mp hx with hx | hx
        · exact hdN x hx
        · exact (hmem1 x hx).1.2
      have hcN' : ∀ x ∈ c ++ n1, x < ns.length := by
        intro x hx
        rcases List.mem_append.mp hx with hx | hx
        · exact hcN x hx
        · exact (hmem1 x hx).1.2
      have hconn' : ∀ x ∈ c ++ n1, connected ns t i x := by
        intro x hx
        rcases List.mem_append.mp hx with hx | hx
        · exact hconn x hx
        · obtain ⟨⟨hak, hkN⟩, _, hkc⟩ := hmem1 x hx
          exact Relation.ReflTransGen.tail haconn ⟨by omega, haN, hkN, hkc⟩
      obtain ⟨n2, heq, hnd2, hN2, hconn2⟩ := ih (ci + 1) (c ++ n1) (d ++ n1)
        hd' hdN' hcN' hconn'
      refine ⟨n1 ++ n2, ?_, ?_, ?_, ?_⟩
      · rw [heq, List.append_assoc, List.append_assoc]
      · rwa [List.append_assoc] at hnd2
      · intro x hx
        rcases List.mem_append.mp hx with hx | hx
        · exact (hmem1 x hx).1.2
        · exact hN2 x hx
      · intro x hx
        rw [← List.append_assoc] at hx
        exact hconn2 x hx
    · rw [if_neg hci]
      exact ⟨[], by simp, by simpa, by simp, by simpa⟩

/-- Invariant of the outer loop of `cluster_nuclei`: the clustered list is
the concatenation of the clusters, it is duplicate-free, in range, covers the
seeds processed so far, and every produced cluster is connected in the
coupling graph. -/
lemma clusterAux_spec (ns : List spin) (t : ℝ) :
    ∀ (L : List ℕ) (acc : List (List ℕ) × List ℕ),
    (∀ x ∈ L, x < ns.length) →
    acc.2 = acc.1.flatten → acc.2.Nodup → (∀ x ∈ acc.2, x < ns.length) →
    (∀ cl ∈ acc.1, ∀ a ∈ cl, ∀ b ∈ cl, connected ns t a b) →
    (L.foldl (clusterStep ns t) acc).2 = (L.foldl (clusterStep ns t) acc).1.flatten ∧
    (L.foldl (clusterStep ns t) acc).2.Nodup ∧
    (∀ x ∈ (L.foldl (clusterStep ns t) acc).2, x < ns.length) ∧
    (∀ x ∈ L, x ∈ (L.foldl (clusterStep ns t) acc).2) ∧
    (∀ x ∈ acc.2, x ∈ (L.foldl (clusterStep ns t) acc).2) ∧
    (∀ cl ∈ (L.foldl (clusterStep ns t) acc).1, ∀ a ∈ cl, ∀ b ∈ cl,
      connected ns t a b) := by
  intro L
  induction L with
  | nil =>
    intro acc hL hjoin hnd hbd hcl
    exact ⟨hjoin, hnd, hbd, by simp, fun x hx => hx, hcl⟩
  | cons i L ih =>
    intro acc hL hjoin hnd hbd hcl
    rw [List.foldl_cons]
    by_cases hi : i ∈ acc.2
    · rw [show clusterStep ns t acc i = acc from if_pos hi]
      obtain ⟨h1, h2, h3, h4, h5, h6⟩ := ih acc (fun x hx => hL x (by simp [hx]))
        hjoin hnd hbd hcl
      refine ⟨h1, h2, h3, ?_, h5, h6⟩
      intro x hx
      rcases List.mem_cons.mp hx with rfl | hx
      · exact h5 x hi
      · exact h4 x hx
    · rw [show clusterStep ns t acc i =
          (acc.1 ++ [(growLoop ns t (ns.length + 1) 0 ([i], acc.2 ++ [i])).1],
            (growLoop ns t (ns.length + 1) 0 ([i], acc.2 ++ [i])).2) from if_neg hi]
      have hiN : i < ns.length := hL i (List.mem_cons_self _ _)
      have hd0 : (acc.2 ++ [i]).Nodup := by
        rw [List.nodup_append]
        refine ⟨hnd, List.nodup_singleton i, ?_⟩
        intro x hx hxi
        rw [List.mem_singleton] at hxi
        subst hxi
        exact hi hx
      have hdN0 : ∀ x ∈ acc.2 ++ [i], x < ns.length := by
        intro x hx
        rcases List.mem_append.mp hx with hx | hx
        · exact hbd x hx
        · simp at hx
          omega
      obtain ⟨new, heq, hnd', hN', hconn'⟩ := growLoop_spec ns t i (ns.length + 1) 0
        [i] (acc.2 ++ [i]) hd0 hdN0 (by simpa using hiN)
        (by
          intro x hx
          rw [List.mem_singleton] at hx
          subst hx
          exact Relation.ReflTransGen.refl)
      rw [heq]
      set acc' : List (List ℕ) × List ℕ :=
        (acc.1 ++ [[i] ++ new], (acc.2 ++ [i]) ++ new) with hacc'
      have hjoin' : acc'.2 = acc'.1.flatten := by
        simp only [hacc', List.flatten_append, List.flatten, List.append_nil, ← hjoin,
          List.append_assoc]
      have hcl' : ∀ cl ∈ acc'.1, ∀ a ∈ cl, ∀ b ∈ cl, connected ns t a b := by
        intro cl hclm a ha b hb
        rcases List.mem_append.mp hclm with h | h
        · exact hcl cl h a ha b hb
        · simp only [List.mem_singleton] at h
          subst h
          exact Relation.ReflTransGen.trans
            (connected_symm ns t (hconn' a ha)) (hconn' b hb)
      obtain ⟨h1, h2, h3, h4, h5, h6⟩ := ih acc' (fun x hx => hL x (by simp [hx]))
        hjoin' hnd' (fun x hx => by
          rcases List.mem_append.mp hx with hx | hx
          · exact hdN0 x hx
          · exact hN' x hx) hcl'
      refine ⟨h1, h2, h3, ?_, ?_, h6⟩
      · intro x hx
        rcases List.mem_cons.mp hx with rfl | hx
        · exact h5 x (by simp [hacc'])
        · exact h4 x hx
      · intro x hx
        exact h5 x (by simp [hacc', hx])

/-- C8: for every list of spins and every threshold, the clusters returned by
`cluster_nuclei` form a partition of the index set `{0..n-1}`: concatenated
they are a permutation of `0,...,n-1`, so every index appears in exactly one
position overall, with no duplicate and no out-of-range index. -/
theorem cluster_nuclei_partition (ns : List spin) (t : ℝ) :
    ((cluster_nuclei ns t).flatten).Perm (List.range ns.length) := by
  obtain ⟨h1, h2, h3, h4, h5, h6⟩ := clusterAux_spec ns t (List.range ns.length)
    ([], []) (fun x hx => List.mem_range.mp hx) rfl List.nodup_nil
    (by simp) (by simp)
  rw [cluster_nuclei, List.perm_ext_iff_of_nodup (h1 ▸ h2) (List.nodup_range _)]
  intro a
  rw [List.mem_range]
  constructor
  · intro ha
    exact h3 a (h1 ▸ ha)
  · intro ha
    exact h1 ▸ h4 a (List.mem_range.mpr ha)

/-- C5 (amended): any two indices in the same cluster returned by
`cluster_nuclei` are connected in the coupling graph (each cluster carries a
spanning tree of threshold-couplings by construction).  The converse of the
original claim fails: see the counterexample. -/
theorem cluster_nuclei_cluster_connected (ns : List spin) (t : ℝ)
    {cl : List ℕ} (hcl : cl ∈ cluster_nuclei ns t)
    {a b : ℕ} (ha : a ∈ cl) (hb : b ∈ cl) :
    connected ns t a b := by
  obtain ⟨h1, h2, h3, h4, h5, h6⟩ := clusterAux_spec ns t (List.range ns.length)
    ([], []) (fun x hx => List.mem_range.mp hx) rfl List.nodup_nil
    (by simp) (by simp)
  exact h6 cl hcl a ha b hb

/-! Concrete three-spin instance refuting the "exactly the connected
components" reading of `cluster_nuclei`: spins at `0`, `3/2` and `1` along
the `(1,1,1)` axis, with the threshold set to the `0`-`2` coupling.  The
edges are `0-2` and `1-2` but not `0-1`; the code only scans upward indices,
so spin `1` (below `2`) is never absorbed into the cluster of `0` and `2`. -/

/-- A unit-gyromagnetic spin at position `(c,c,c)`. -/
def exSpin (c : ℝ) : spin := ⟨fun _ => c, 1, fun _ => 0⟩

def exNuclei : List spin := [exSpin 0, exSpin (3 / 2), exSpin 1]

def exThreshold : ℝ := coupling_strength (exSpin 0) (exSpin 1)

lemma growLoop_zero (ns : List spin) (t : ℝ) (ci : ℕ) (st : List ℕ × List ℕ) :
    growLoop ns t 0 ci st = st := rfl

lemma growLoop_succ (ns : List spin) (t : ℝ) (fuel ci : ℕ) (st : List ℕ × List ℕ) :
    growLoop ns t (fuel + 1) ci st =
      if ci < st.1.length then
        growLoop ns t fuel (ci + 1) (scanFrom ns t (st.1.getD ci 0) st)
      else st := rfl

/-- Coupling strength between two collinear spins along the `(1,1,1)` axis. -/
lemma coupling_collinear (p : Fin 3 → ℝ) (c : ℝ) (hc : c ≠ 0) (g1 g2 : ℝ)
    (S1 S2 : Fin 3 → Matrix (Fin 2) (Fin 2) ℂ) :
    coupling_strength ⟨p, g1, S1⟩ ⟨fun i => p i + c, g2, S2⟩ =
      2 * |g1 * g2| / (8 * Real.pi * (|c| * Real.sqrt 3) ^ (3 : ℕ)) := by
  have hvec : (fun i : Fin 3 => (fun i : Fin 3 => p i + c) i - p i) =
      (fun _ : Fin 3 => c) := by
    funext i
    simp
  have habs : |c| ≠ 0 := abs_ne_zero.mpr hc
  have hs3 : (0 : ℝ) < Real.sqrt 3 := Real.sqrt_pos.mpr (by norm_num)
  have hnorm : norm3 (fun _ : Fin 3 => c) = |c| * Real.sqrt 3 := by
    unfold norm3 dot3
    rw [show (fun _ : Fin 3 => c) 0 * (fun _ : Fin 3 => c) 0 +
        (fun _ : Fin 3 => c) 1 * (fun _ : Fin 3 => c) 1 +
        (fun _ : Fin 3 => c) 2 * (fun _ : Fin 3 => c) 2 = c ^ 2 * 3 from by ring]
    rw [Real.sqrt_mul (sq_nonneg c), Real.sqrt_sq_eq_abs]
  have hdot : dot3 (hat (fun _ : Fin 3 => c)) zhat = c / |c| := by
    unfold dot3 hat zhat
    rw [hnorm]
    simp only [Matrix.cons_val_zero, Matrix.cons_val_one, Matrix.head_cons,
      Matrix.cons_val_two, Matrix.tail_cons]
    rw [show c / (|c| * Real.sqrt 3) * (1 / Real.sqrt 3) +
        c / (|c| * Real.sqrt 3) * (1 / Real.sqrt 3) +
        c / (|c| * Real.sqrt 3) * (1 / Real.sqrt 3) =
        3 * c / (|c| * (Real.sqrt 3 * Real.sqrt 3)) from by ring]
    rw [Real.mul_self_sqrt (by norm_num)]
    rw [show |c| * 3 = 3 * |c| from by ring]
    rw [div_eq_div_iff (by positivity) habs]
    ring
  have hsq : c / |c| * (c / |c|) = 1 := by
    rw [div_mul_div_comm, abs_mul_abs_self, div_self (mul_ne_zero hc hc)]
  unfold coupling_strength
  simp only
  rw [hvec, hnorm, hdot]
  unfold a0
  rw [mul_one]
  rw [show (3 : ℝ) * (c / |c|) * (c / |c|) = 3 * (c / |c| * (c / |c|)) from by ring,
    hsq]
  rw [show (1 : ℝ) - 3 * 1 = -2 from by norm_num]
  rw [abs_mul]
  rw [show |(-2 : ℝ)| = 2 from by norm_num]
  rw [abs_div]
  rw [abs_of_pos (show (0:ℝ) < 8 * Real.pi * (|c| * Real.sqrt 3) ^ (3:ℕ) from by
    have := Real.pi_pos
    positivity)]
  ring

lemma coupling_exSpin (c₁ c₂ : ℝ) (hne : c₂ ≠ c₁) :
    coupling_strength (exSpin c₁) (exSpin c₂) =
      2 / (8 * Real.pi * (|c₂ - c₁| * Real.sqrt 3) ^ (3 : ℕ)) := by
  have h := coupling_collinear (fun _ => c₁) (c₂ - c₁) (sub_ne_zero.mpr hne) 1 1
    (fun _ => 0) (fun _ => 0)
  have hspin : (⟨fun i => (fun _ : Fin 3 => c₁) i + (c₂ - c₁), 1, fun _ => 0⟩ : spin) =
      exSpin c₂ := by
    unfold exSpin
    congr 1
    funext i
    ring
  rw [hspin] at h
  rw [show exSpin c₁ = ⟨fun _ : Fin 3 => c₁, 1, fun _ => 0⟩ from rfl, h]
  norm_num

lemma ex_coupling_01_lt : coupling_strength (exSpin 0) (exSpin (3 / 2)) <
    coupling_strength (exSpin 0) (exSpin 1) := by
  rw [coupling_exSpin 0 (3 / 2) (by norm_num), coupling_exSpin 0 1 (by norm_num)]
  have hs3 : (0 : ℝ) < Real.sqrt 3 := Real.sqrt_pos.mpr (by norm_num)
  have hpi := Real.pi_pos
  rw [show |(3 / 2 : ℝ) - 0| = 3 / 2 from by norm_num,
    show |(1 : ℝ) - 0| = 1 from by norm_num]
  apply div_lt_div_of_pos_left (by norm_num) (by positivity)
  have hlt : ((1 : ℝ) * Real.sqrt 3) ^ (3:ℕ) < ((3 / 2 : ℝ) * Real.sqrt 3) ^ (3:ℕ) := by
    apply pow_lt_pow_left₀ ?_ (by positivity) (by norm_num)
    nlinarith
  nlinarith

lemma ex_coupling_12_ge : coupling_strength (exSpin 0) (exSpin 1) ≤
    coupling_strength (exSpin (3 / 2)) (exSpin 1) := by
  rw [coupling_exSpin (3 / 2) 1 (by norm_num), coupling_exSpin 0 1 (by norm_num)]
  have hs3 : (0 : ℝ) < Real.sqrt 3 := Real.sqrt_pos.mpr (by norm_num)
  have hpi := Real.pi_pos
  rw [show |(1 : ℝ) - 3 / 2| = 1 / 2 from by rw [abs_of_neg] <;> norm_num,
    show |(1 : ℝ) - 0| = 1 from by norm_num]
  apply le_of_lt
  apply div_lt_div_of_pos_left (by norm_num) (by positivity)
  have hlt : ((1 / 2 : ℝ) * Real.sqrt 3) ^ (3:ℕ) < ((1 : ℝ) * Real.sqrt 3) ^ (3:ℕ) := by
    apply pow_lt_pow_left₀ ?_ (by positivity) (by norm_num)
    nlinarith
  nlinarith

lemma ex_scan0 : scanFrom exNuclei exThreshold 0 ([0], [0]) = ([0, 2], [0, 2]) := by
  unfold scanFrom
  rw [show List.range' (0 + 1) (exNuclei.length - (0 + 1)) = [1, 2] from rfl,
    List.foldl_cons]
  rw [if_neg (show ¬((1 : ℕ) ∉ (([0], [0]) : List ℕ × List ℕ).2 ∧ exThreshold ≤
      coupling_strength (exNuclei.getD 0 spinDefault) (exNuclei.getD 1 spinDefault))
    from fun h => absurd h.2 (not_le.mpr ex_coupling_01_lt))]
  rw [List.foldl_cons]
  rw [if_pos (show ((2 : ℕ) ∉ (([0], [0]) : List ℕ × List ℕ).2 ∧ exThreshold ≤
      coupling_strength (exNuclei.getD 0 spinDefault) (exNuclei.getD 2 spinDefault))
    from ⟨by decide, le_refl _⟩)]
  rfl

lemma ex_scan2 : scanFrom exNuclei exThreshold 2 ([0, 2], [0, 2]) = ([0, 2], [0, 2]) := by
  unfold scanFrom
  rw [show List.range' (2 + 1) (exNuclei.length - (2 + 1)) = [] from rfl]
  rfl

lemma ex_scan1 : scanFrom exNuclei exThreshold 1 ([1], [0, 2, 1]) = ([1], [0, 2, 1]) := by
  unfold scanFrom
  rw [show List.range' (1 + 1) (exNuclei.length - (1 + 1)) = [2] from rfl,
    List.foldl_cons]
  rw [if_neg (show ¬((2 : ℕ) ∉ (([1], [0, 2, 1]) : List ℕ × List ℕ).2 ∧ exThreshold ≤
      coupling_strength (exNuclei.getD 1 spinDefault) (exNuclei.getD 2 spinDefault))
    from fun h => h.1 (by decide))]
  rfl

lemma ex_grow0 : growLoop exNuclei exThreshold (exNuclei.length + 1) 0 ([0], [0]) =
    ([0, 2], [0, 2]) := by
  rw [show exNuclei.length + 1 = 3 + 1 from rfl, growLoop_succ,
    if_pos (show (0 : ℕ) < (([0], [0]) : List ℕ × List ℕ).1.length by decide),
    show (([0], [0]) : List ℕ × List ℕ).1.getD 0 0 = 0 from rfl, ex_scan0,
    show (3 : ℕ) = 2 + 1 from rfl, growLoop_succ,
    if_pos (show (1 : ℕ) < (([0, 2], [0, 2]) : List ℕ × List ℕ).1.length by decide),
    show (([0, 2], [0, 2]) : List ℕ × List ℕ).1.getD 1 0 = 2 from rfl, ex_scan2,
    show (2 : ℕ) = 1 + 1 from rfl, growLoop_succ,
    if_neg (show ¬((2 : ℕ) < (([0, 2], [0, 2]) : List ℕ × List ℕ).1.length) by decide)]

lemma ex_grow1 : growLoop exNuclei exThreshold (exNuclei.length + 1) 0 ([1], [0, 2, 1]) =
    ([1], [0, 2, 1]) := by
  rw [show exNuclei.length + 1 = 3 + 1 from rfl, growLoop_succ,
    if_pos (show (0 : ℕ) < (([1], [0, 2, 1]) : List ℕ × List ℕ).1.length by decide),
    show (([1], [0, 2, 1]) : List ℕ × List ℕ).1.getD 0 0 = 1 from rfl, ex_scan1,
    show (3 : ℕ) = 2 + 1 from rfl, growLoop_succ,
    if_neg (show ¬((1 : ℕ) < (([1], [0, 2, 1]) : List ℕ × List ℕ).1.length) by decide)]

/-- Evaluation of `cluster_nuclei` on the three-spin instance: the result is
`[[0,2],[1]]`, although the coupling graph has the single connected component
`{0,1,2}` (edges `0-2` and `1-2`). -/
lemma ex_cluster_eval : cluster_nuclei exNuclei exThreshold = [[0, 2], [1]] := by
  unfold cluster_nuclei
  rw [show List.range exNuclei.length = [0, 1, 2] from rfl]
  rw [List.foldl_cons,
    show clusterStep exNuclei exThreshold ([], []) 0 = ([[0, 2]], [0, 2]) from by
      unfold clusterStep
      rw [if_neg (show ¬((0 : ℕ) ∈ (([], []) : List (List ℕ) × List ℕ).2) by decide)]
      simp only [List.nil_append]
      rw [ex_grow0]]
  rw [List.foldl_cons,
    show clusterStep exNuclei exThreshold ([[0, 2]], [0, 2]) 1 =
        ([[0, 2], [1]], [0, 2, 1]) from by
      unfold clusterStep
      rw [if_neg (show ¬((1 : ℕ) ∈ (([[0, 2]], [0, 2]) :
          List (List ℕ) × List ℕ).2) by decide)]
      simp only
      rw [show (([[0, 2]], [0, 2]) : List (List ℕ) × List ℕ).2 ++ [1] = [0, 2, 1]
        from rfl, ex_grow1]
      rfl]
  rw [List.foldl_cons,
    show clusterStep exNuclei exThreshold ([[0, 2], [1]], [0, 2, 1]) 2 =
        ([[0, 2], [1]], [0, 2, 1]) from
      if_pos (by decide),
    List.foldl_nil]

/-- C5 counterexample: on the three-spin instance the output of
`cluster_nuclei` is NOT the partition into connected components of the
threshold graph: indices `1` and `2` are joined by an edge (so connected),
yet land in different clusters, because the scan from cluster member `2`
only examines indices above `2`. -/
theorem cluster_nuclei_counterexample :
    ¬ ((∃ cl ∈ cluster_nuclei exNuclei exThreshold, 1 ∈ cl ∧ 2 ∈ cl) ↔
      connected exNuclei exThreshold 1 2) := by
  intro h
  have hedge : couples exNuclei exThreshold 1 2 := by
    refine ⟨by decide, by decide, by decide, ?_⟩
    show exThreshold ≤ coupling_strength (exSpin (3 / 2)) (exSpin 1)
    exact ex_coupling_12_ge
  obtain ⟨cl, hcl, h1, h2⟩ := h.mpr (Relation.ReflTransGen.single hedge)
  rw [ex_cluster_eval] at hcl
  rcases List.mem_cons.mp hcl with rfl | hcl
  · exact absurd h1 (by decide)
  · rcases List.mem_cons.mp hcl with rfl | hcl
    · exact absurd h2 (by decide)
    · simp at hcl

/-- Closed witness for the amended C5: on the three-spin instance, the
members `0` and `2` of the first output cluster are indeed connected. -/
theorem cluster_nuclei_cluster_connected_witness :
    connected exNuclei exThreshold 0 2 :=
  @cluster_nuclei_cluster_connected exNuclei exThreshold [0, 2]
    (by rw [ex_cluster_eval]; exact List.mem_cons_self _ _)
    0 2 (by decide) (by decide)

/-! ### AXY pulse times (`nv-math.cpp`, lines 261-321) -/

/-- C `atan2(y, x)`: the argument of the complex number `x + iy`,
valued in `(-π, π]`. -/
def atan2 (y x : ℝ) : ℝ := Complex.arg ⟨x, y⟩

/-- C++ `axy_pulse_times(k, f)` from `nv-math.cpp`: the 12 normalized pulse
times of one AXY period for harmonic `k` and Fourier weight `f`.  The code
asserts `k == 1 || k == 3` and computes the first two pulse fractions
`x1, x2` by the `k == 1` formula or (for any other `k`) the `k == 3`
formula, then mirrors them into the symmetric 12-marker schedule. -/
def axy_pulse_times (k : ℕ) (f : ℝ) : List ℝ :=
  let fp := f * Real.pi
  let w1 := 4 - fp
  let w2 := w1 * (960 - 144 * fp - 12 * fp * fp + fp * fp * fp)
  let q1 := 4 / (Real.sqrt (5 + fp) - 1)
  let q2 := 4 / (Real.sqrt (5 + fp) + 1)
  let x1 : ℝ :=
    if k = 1 then
      1 / (2 * Real.pi) * atan2 ((3 * fp - 12) * w1 + Real.sqrt (3 * w2))
        (Real.sqrt 6 * Real.sqrt (w2 - 96 * fp * w1 + w1 * w1 * Real.sqrt (3 * w2)))
    else
      1 / 4 - 1 / (2 * Real.pi) * Real.arctan (Real.sqrt (q1 * q1 - 1))
  let x2 : ℝ :=
    if k = 1 then
      1 / (2 * Real.pi) * atan2 (-((3 * fp - 12) * w1) + Real.sqrt (3 * w2))
        (Real.sqrt 6 * Real.sqrt (w2 - 96 * fp * w1 - w1 * w1 * Real.sqrt (3 * w2)))
    else
      1 / 4 - 1 / (2 * Real.pi) * Real.arctan (Real.sqrt (q2 * q2 - 1))
  [0, x1, x2, 0.25, 0.5 - x2, 0.5 - x1, 0.5 + x1, 0.5 + x2, 0.75,
    1 - x2, 1 - x1, 1]

/-- Inner loop of `advanced_pulse_times`: starting from `[0]`, iterate `p`
(at most `2N` times), appending `p/N + pulse_times[p%N+1] - normed_advance`
whenever that value is `≥ 0`, and breaking once the accumulator holds `N+1`
entries. -/
def aptLoop (pulse_times : List ℝ) (N : ℕ) (normed_advance : ℝ) :
    ℕ → ℕ → List ℝ → List ℝ
  | 0, _, acc => acc
  | count + 1, p, acc =>
    let v : ℝ := ((p / N : ℕ) : ℝ) + pulse_times.getD (p % N + 1) 0 - normed_advance
    let acc' := if v ≥ 0 then acc ++ [v] else acc
    if acc'.length = N + 1 then acc'
    else aptLoop pulse_times N normed_advance count (p + 1) acc'

/-- C++ `advanced_pulse_times(pulse_times, advance)` from `nv-math.cpp`:
rotate the pulse schedule by a fractional-period phase advance; with zero
normalized advance the input is returned unchanged. -/
def advanced_pulse_times (pulse_times : List ℝ) (advance : ℝ) : List ℝ :=
  let normed_advance := advance - (⌊advance⌋ : ℝ)
  if normed_advance = 0 then pulse_times
  else
    aptLoop pulse_times (pulse_times.length - 2) normed_advance
      (2 * (pulse_times.length - 2)) 0 [0] ++ [1]

/-- C6: for every `k ∈ {1,3}` and every `f` with `|f·π|` in the harmonic's
feasible range, `axy_pulse_times k f` has exactly 12 entries, starts at `0`,
ends at `1`, and satisfies the mirror symmetry
`times[11-i] = 1 - times[i]` for `i = 1..5`. -/
theorem axy_pulse_times_symmetric (k : ℕ) (f : ℝ) (hk : k = 1 ∨ k = 3)
    (hf : |f * Real.pi| <
      if k = 1 then 8 * Real.cos (Real.pi / 9) - 4 else 4) :
    (axy_pulse_times k f).length = 12 ∧
    (axy_pulse_times k f).getD 0 0 = 0 ∧
    (axy_pulse_times k f).getD 11 0 = 1 ∧
    ∀ i, 1 ≤ i → i ≤ 5 →
      (axy_pulse_times k f).getD (11 - i) 0 = 1 - (axy_pulse_times k f).getD i 0 := by
  unfold axy_pulse_times
  refine ⟨rfl, rfl, rfl, ?_⟩
  intro i h1 h5
  interval_cases i <;>
    simp only [List.getD_cons_succ, List.getD_cons_zero] <;> (try norm_num) <;> ring

/-- Closed witness for C6 at `k = 3`, `f = 0`. -/
theorem axy_pulse_times_symmetric_witness :
    (axy_pulse_times 3 0).length = 12 ∧
    (axy_pulse_times 3 0).getD 8 0 = 1 - (axy_pulse_times 3 0).getD 3 0 :=
  ⟨(axy_pulse_times_symmetric 3 0 (Or.inr rfl) (by norm_num)).1,
    (axy_pulse_times_symmetric 3 0 (Or.inr rfl) (by norm_num)).2.2.2 3
      (by norm_num) (by norm_num)⟩

/-- C7: for every 12-entry pulse schedule beginning with `0` and ending with
`1`, `advanced_pulse_times` with advance `0` returns the input unchanged,
and with advance `1` (a full period) returns the same list as advance `0`. -/
theorem advanced_pulse_times_zero_one (pt : List ℝ) (hlen : pt.length = 12)
    (h0 : pt.getD 0 0 = 0) (h11 : pt.getD 11 0 = 1) :
    advanced_pulse_times pt 0 = pt ∧
    advanced_pulse_times pt 1 = advanced_pulse_times pt 0 := by
  have hz : (0 : ℝ) - (⌊(0 : ℝ)⌋ : ℤ) = 0 := by norm_num
  have ho : (1 : ℝ) - (⌊(1 : ℝ)⌋ : ℤ) = 0 := by norm_num
  constructor
  · unfold advanced_pulse_times
    rw [if_pos hz]
  · unfold advanced_pulse_times
    rw [if_pos hz, if_pos ho]

/-- Closed witness for C7 at a concrete 12-entry schedule. -/
theorem advanced_pulse_times_zero_one_witness :
    advanced_pulse_times [0, 0, 0, 0, 0, 0, 0, 0, 0, 0, 0, 1] 0 =
      [0, 0, 0, 0, 0, 0, 0, 0, 0, 0, 0, 1] ∧
    advanced_pulse_times [0, 0, 0, 0, 0, 0, 0, 0, 0, 0, 0, 1] 1 =
      advanced_pulse_times [0, 0, 0, 0, 0, 0, 0, 0, 0, 0, 0, 1] 0 :=
  advanced_pulse_times_zero_one _ (by simp) (by simp)
    (by simp only [List.getD_cons_succ, List.getD_cons_zero])

/-! ### Algebraic properties of `act` needed for the propagator simulator -/

/-- The joint basis-state encoding (target-qubit part, ignored-qubit part)
as an element of the full index set. -/
def encFin {qs : List ℕ} {N : ℕ} (hnd : qs.Nodup) (hbd : ∀ a ∈ qs, a < N)
    (x : Fin (2 ^ qs.length)) (s : Fin (2 ^ (qs_ignore qs N).length)) : Fin (2 ^ N) :=
  ⟨subIndex qs N x.val + subIndex (qs_ignore qs N) N s.val,
    subIndex_add_lt hnd (qs_ignore_nodup qs N) hbd qs_ignore_bd qs_ignore_disj _ _⟩

lemma act_apply_enc {qs : List ℕ} {N : ℕ} (hnd : qs.Nodup) (hbd : ∀ a ∈ qs, a < N)
    (A : Matrix (Fin (2 ^ qs.length)) (Fin (2 ^ qs.length)) ℂ)
    (x y : Fin (2 ^ qs.length)) (s t : Fin (2 ^ (qs_ignore qs N).length)) :
    act qs N A (encFin hnd hbd x s) (encFin hnd hbd y t) = if s = t then A x y else 0 :=
  act_apply hnd hbd A x y s t

lemma encFin_bijective {qs : List ℕ} {N : ℕ} (hnd : qs.Nodup)
    (hbd : ∀ a ∈ qs, a < N) :
    Function.Bijective (fun p : Fin (2 ^ qs.length) ×
        Fin (2 ^ (qs_ignore qs N).length) => encFin hnd hbd p.1 p.2) := by
  obtain ⟨hlen, hle⟩ := qs_ignore_length hnd hbd
  exact subIndex_add_bijective hnd (qs_ignore_nodup qs N) hbd qs_ignore_bd
    qs_ignore_disj rfl rfl (by omega)

lemma encFin_inj {qs : List ℕ} {N : ℕ} (hnd : qs.Nodup) (hbd : ∀ a ∈ qs, a < N)
    {x y : Fin (2 ^ qs.length)} {s t : Fin (2 ^ (qs_ignore qs N).length)}
    (h : encFin hnd hbd x s = encFin hnd hbd y t) : x = y ∧ s = t := by
  have h' := congrArg Fin.val h
  obtain ⟨h1, h2⟩ := subIndex_add_inj hnd (qs_ignore_nodup qs N) hbd qs_ignore_bd
    qs_ignore_disj x.isLt y.isLt s.isLt t.isLt h'
  exact ⟨Fin.ext h1, Fin.ext h2⟩

lemma act_mul {qs : List ℕ} {N : ℕ} (hnd : qs.Nodup) (hbd : ∀ a ∈ qs, a < N)
    (A B : Matrix (Fin (2 ^ qs.length)) (Fin (2 ^ qs.length)) ℂ) :
    act qs N A * act qs N B = act qs N (A * B) := by
  have hbij := encFin_bijective hnd hbd
  ext i j
  obtain ⟨⟨x, s⟩, hi⟩ := hbij.2 i
  obtain ⟨⟨y, t⟩, hj⟩ := hbij.2 j
  simp only at hi hj
  rw [← hi, ← hj]
  rw [Matrix.mul_apply]
  rw [← Fintype.sum_bijective
    (fun p : Fin (2 ^ qs.length) × Fin (2 ^ (qs_ignore qs N).length) =>
      encFin hnd hbd p.1 p.2) hbij
    (fun p => act qs N A (encFin hnd hbd x s) (encFin hnd hbd p.1 p.2) *
      act qs N B (encFin hnd hbd p.1 p.2) (encFin hnd hbd y t))
    (fun k => act qs N A (encFin hnd hbd x s) k *
      act qs N B k (encFin hnd hbd y t))
    (fun p => rfl)]
  rw [Fintype.sum_prod_type]
  simp_rw [act_apply_enc hnd hbd A x _ s _, act_apply_enc hnd hbd B _ y _ t,
    act_apply_enc hnd hbd (A * B) x y s t]
  by_cases hst : s = t
  · subst hst
    rw [if_pos rfl, Matrix.mul_apply, Finset.sum_comm]
    have hcol : ∀ u : Fin (2 ^ (qs_ignore qs N).length),
        (∑ z : Fin (2 ^ qs.length),
          (if s = u then A x z else 0) * (if u = s then B z y else 0)) =
        if u = s then (∑ z : Fin (2 ^ qs.length), A x z * B z y) else 0 := by
      intro u
      by_cases hu : u = s
      · subst hu
        simp
      · have hu' : ¬(s = u) := fun h => hu h.symm
        simp [hu, hu']
    simp_rw [hcol]
    rw [Finset.sum_ite_eq' Finset.univ s
      (fun _ => ∑ z : Fin (2 ^ qs.length), A x z * B z y)]
    simp
  · rw [if_neg hst]
    apply Finset.sum_eq_zero
    intro z _
    apply Finset.sum_eq_zero
    intro u _
    by_cases hsu : s = u
    · subst hsu
      rw [if_neg (fun h => hst h), mul_zero]
    · rw [if_neg hsu, zero_mul]

lemma act_one {qs : List ℕ} {N : ℕ} (hnd : qs.Nodup) (hbd : ∀ a ∈ qs, a < N) :
    act qs N (1 : Matrix (Fin (2 ^ qs.length)) (Fin (2 ^ qs.length)) ℂ) = 1 := by
  have hbij := encFin_bijective hnd hbd
  ext i j
  obtain ⟨⟨x, s⟩, hi⟩ := hbij.2 i
  obtain ⟨⟨y, t⟩, hj⟩ := hbij.2 j
  simp only at hi hj
  rw [← hi, ← hj]
  rw [act_apply_enc hnd hbd 1 x y s t]
  rw [Matrix.one_apply, Matrix.one_apply]
  by_cases hst : s = t
  · subst hst
    rw [if_pos rfl]
    by_cases hxy : x = y
    · subst hxy
      rw [if_pos rfl, if_pos rfl]
    · rw [if_neg hxy, if_neg (fun h => hxy (encFin_inj hnd hbd h).1)]
  · rw [if_neg hst, if_neg (fun h => hst (encFin_inj hnd hbd h).2)]

lemma act_conjTranspose {qs : List ℕ} {N : ℕ} (hnd : qs.Nodup)
    (hbd : ∀ a ∈ qs, a < N)
    (A : Matrix (Fin (2 ^ qs.length)) (Fin (2 ^ qs.length)) ℂ) :
    (act qs N A).conjTranspose = act qs N A.conjTranspose := by
  have hbij := encFin_bijective hnd hbd
  ext i j
  obtain ⟨⟨x, s⟩, hi⟩ := hbij.2 i
  obtain ⟨⟨y, t⟩, hj⟩ := hbij.2 j
  simp only at hi hj
  rw [← hi, ← hj, Matrix.conjTranspose_apply, act_apply_enc hnd hbd A y x t s,
    act_apply_enc hnd hbd A.conjTranspose x y s t]
  rw [apply_ite (star : ℂ → ℂ), star_zero]
  by_cases hst : s = t
  · subst hst
    rw [if_pos rfl, if_pos rfl]
    rfl
  · rw [if_neg (fun h => hst h.symm), if_neg hst]

/-! ### Propagator simulation (`nv-math.cpp`, lines 442-609) -/

/-- Operator type for an NV+cluster system with `n` cluster nuclei
(`spins = n + 1`). -/
abbrev Mat (n : ℕ) := Matrix (Fin (2 ^ (n + 1))) (Fin (2 ^ (n + 1))) ℂ

/-- The Pauli matrix `sx` from `nv-math.h`. -/
def sx : Matrix (Fin (2 ^ ([0] : List ℕ).length)) (Fin (2 ^ ([0] : List ℕ).length)) ℂ :=
  Matrix.of ![![0, 1], ![1, 0]]

/-- `exp(-j*H*c)` as used throughout the simulator: the matrix exponential of
`(-i·c) • H`. -/
def sexp {n : ℕ} (c : ℝ) (H : Mat n) : Mat n :=
  NormedSpace.exp ℂ ((-(c : ℂ) * Complex.I) • H)

/-- The NV spin-flip (π-)pulse `X = act(sx, {0}, spins)`. -/
def Xflip (n : ℕ) : Mat n := act [0] (n + 1) sx

/-- The final re-normalization
`U /= sqrt(real(trace(U.adjoint()*U)/double(U.rows())))` (division rendered as
multiplication by the inverse). -/
def normalizeU {n : ℕ} (U : Mat n) : Mat n :=
  ((Real.sqrt ((Matrix.trace (U.conjTranspose * U)).re / (2 ^ (n + 1) : ℝ)) : ℝ) :
    ℂ)⁻¹ • U

/-- The initial pulse-parity loop of both overloads: count the pulse markers
(entries `1 .. size-2`) strictly below the normalized advance, breaking at
the first that is not. -/
def pulseCountInit (pulses : List ℝ) (normed_advance : ℝ) : ℕ :=
  (((pulses.drop 1).take (pulses.length - 2)).takeWhile
    (fun x => decide (x < normed_advance))).length

/-- Whole-period loop of the static overload: multiply
`X * exp(-j*H*(aᵢ-aᵢ₋₁)*t_DD)` over successive advanced pulse times. -/
def periodLoop {n : ℕ} (H : Mat n) (t_DD : ℝ) : List ℝ → ℝ → Mat n → Mat n
  | [], _, U => U
  | a :: rest, prev, U =>
      periodLoop H t_DD rest a (Xflip n * sexp ((a - prev) * t_DD) H * U)

/-- Remainder loop of the static overload, also tracking `pulse_count`:
advance pulse by pulse while the next marker lies inside the remaining time,
then close with the truncated final segment and break. -/
def remLoop {n : ℕ} (H : Mat n) (t_DD remaining : ℝ) :
    List ℝ → ℝ → Mat n → ℕ → Mat n × ℕ
  | [], _, U, count => (U, count)
  | a :: rest, prev, U, count =>
      if a * t_DD < remaining then
        remLoop H t_DD remaining rest a
          (Xflip n * sexp (t_DD * (a - prev)) H * U) (count + 1)
      else (sexp (remaining - prev * t_DD) H * U, count)

/-- Static-field overload of `simulate_propagator` (`nv-math.cpp` 442-498).
The cluster Hamiltonian `H = H_int_large_static_Bz(nv,cluster) +
H_nZ(nv,cluster,static_Bz*zhat)` is a parameter, since the claims under
scrutiny quantify over every cluster and field (hence over every `H`).
`int(simulation_time/t_DD)` is rendered as `⌊·⌋₊`, which agrees with the C
truncation for the non-negative durations of the spec. -/
def simulate_propagator_static {n : ℕ} (H : Mat n) (w_DD : ℝ) (k_DD : ℕ)
    (f_DD : ℝ) (simulation_time advance : ℝ) : Mat n :=
  let t_DD := 2 * Real.pi / w_DD
  let normed_advance := advance / t_DD - (⌊advance / t_DD⌋ : ℝ)
  let pulses := axy_pulse_times k_DD f_DD
  let advanced_pulses := advanced_pulse_times pulses normed_advance
  let count0 := pulseCountInit pulses normed_advance
  let U0 : Mat n := if count0 % 2 ≠ 0 then Xflip n * 1 else 1
  let U1 : Mat n :=
    if simulation_time ≥ t_DD then
      (Xflip n *
          periodLoop H t_DD (advanced_pulses.drop 1) (advanced_pulses.getD 0 0) 1) ^
          ⌊simulation_time / t_DD⌋₊ * U0
    else U0
  let remaining_time := simulation_time - (⌊simulation_time / t_DD⌋₊ : ℝ) * t_DD
  let r := remLoop H t_DD remaining_time (advanced_pulses.drop 1)
    (advanced_pulses.getD 0 0) U1 count0
  normalizeU (if r.2 % 2 ≠ 0 then Xflip n * r.1 else r.1)

/-- One step of the dynamic-field integration loop (`nv-math.cpp` 550-599).
`Hof u` stands for the C++
`H_static + H_nZ(nv, cluster, static_Bz*zhat + controls.B(u))`. -/
def dynStep {n : ℕ} (Hof : ℝ → Mat n) (pulses : List ℝ)
    (t_DD dt simulation_time advance : ℝ) (st : Mat n × ℕ) (t_i : ℕ) :
    Mat n × ℕ :=
  let t := ((t_i : ℝ) + 0.5) * dt + advance
  match (List.range' 1 (pulses.length - 2)).find?
      (fun p => decide (pulses.getD p 0 * t_DD > t ∧
        pulses.getD p 0 * t_DD < t + dt)) with
  | none =>
      if t + dt < simulation_time then
        (sexp dt (Hof t) * st.1, st.2)
      else
        (sexp (simulation_time - t) (Hof (t + (simulation_time - t) / 2)) * st.1,
          st.2)
  | some p =>
      (sexp (t + dt - pulses.getD p 0 * t_DD)
          (Hof (t + dt - (t + dt - pulses.getD p 0 * t_DD) / 2)) *
        (Xflip n *
          (sexp (pulses.getD p 0 * t_DD - t)
              (Hof (t + (pulses.getD p 0 * t_DD - t) / 2)) * st.1)),
        st.2 + 1)

/-- Dynamic-control-field overload of `simulate_propagator` (`nv-math.cpp`
500-609), instrumented to also return the final C++ `pulse_count`.  `Hof` and
`frequency_scale` are parameters standing for the Hamiltonian-at-time and the
computed largest frequency scale (the claims quantify over all clusters and
control-field configurations). -/
def simulate_propagator_dynamic_aux {n : ℕ} (Hof : ℝ → Mat n)
    (frequency_scale : ℝ) (integration_factor : ℕ) (w_DD : ℝ) (k_DD : ℕ)
    (f_DD : ℝ) (simulation_time advance : ℝ) : Mat n × ℕ :=
  let t_DD := 2 * Real.pi / w_DD
  let normed_advance := advance / t_DD - (⌊advance / t_DD⌋ : ℝ)
  let pulses := axy_pulse_times k_DD f_DD
  let dt := 1 / (frequency_scale * (integration_factor : ℝ))
  let integration_steps := ⌊simulation_time / dt + 0.5⌋₊
  let count0 := pulseCountInit pulses normed_advance
  let U0 : Mat n := if count0 % 2 ≠ 0 then Xflip n * 1 else 1
  let r := (List.range integration_steps).foldl
    (dynStep Hof pulses t_DD dt simulation_time advance) (U0, count0)
  (if r.2 % 2 ≠ 0 then Xflip n * r.1 else r.1, r.2)

/-- The dynamic-control-field overload's returned propagator (normalized). -/
def simulate_propagator_dynamic {n : ℕ} (Hof : ℝ → Mat n)
    (frequency_scale : ℝ) (integration_factor : ℕ) (w_DD : ℝ) (k_DD : ℕ)
    (f_DD : ℝ) (simulation_time advance : ℝ) : Mat n :=
  normalizeU (simulate_propagator_dynamic_aux Hof frequency_scale
    integration_factor w_DD k_DD f_DD simulation_time advance).1


/-! ### Unitarity and flip-pulse lemmas -/

open scoped Matrix

lemma sx_mul_sx : sx * sx = 1 := by
  have h : (!![(0 : ℂ), 1; 1, 0]) * !![(0 : ℂ), 1; 1, 0] = 1 := by
    rw [Matrix.mul_fin_two, Matrix.one_fin_two]
    norm_num
  exact h

lemma sx_conjTranspose : sx.conjTranspose = sx := by
  have h : (!![(0 : ℂ), 1; 1, 0]).conjTranspose = !![(0 : ℂ), 1; 1, 0] := by
    ext i j
    fin_cases i <;> fin_cases j <;> simp [Matrix.conjTranspose_apply]
  exact h

lemma zero_lt_list_mem {n : ℕ} : ∀ a ∈ ([0] : List ℕ), a < n + 1 := by
  intro a ha
  rw [List.mem_singleton] at ha
  omega

lemma Xflip_mul_self (n : ℕ) : Xflip n * Xflip n = 1 := by
  rw [Xflip, act_mul (List.nodup_singleton 0) zero_lt_list_mem, sx_mul_sx,
    act_one (List.nodup_singleton 0) zero_lt_list_mem]

lemma Xflip_conjTranspose (n : ℕ) : (Xflip n).conjTranspose = Xflip n := by
  rw [Xflip, act_conjTranspose (List.nodup_singleton 0) zero_lt_list_mem,
    sx_conjTranspose]

lemma Xflip_unitary (n : ℕ) : (Xflip n).conjTranspose * Xflip n = 1 := by
  rw [Xflip_conjTranspose, Xflip_mul_self]

lemma sexp_zero {n : ℕ} (H : Mat n) : sexp 0 H = 1 := by
  rw [sexp]
  norm_num

lemma sexp_unitary {n : ℕ} {H : Mat n} (hH : H.IsHermitian) (c : ℝ) :
    (sexp c H)ᴴ * sexp c H = 1 := by
  set M : Mat n := (-(c : ℂ) * Complex.I) • H with hM
  have hMH : Mᴴ = -M := by
    rw [hM, Matrix.conjTranspose_smul, hH.eq, ← neg_smul]
    congr 1
    simp [Complex.ext_iff]
  have h1 : (sexp c H)ᴴ = NormedSpace.exp ℂ (-M) := by
    rw [sexp, ← hM, ← Matrix.exp_conjTranspose, hMH]
  rw [h1, sexp, ← hM,
    ← Matrix.exp_add_of_commute ℂ (-M) M (Commute.neg_left (Commute.refl M)),
    neg_add_cancel]
  exact NormedSpace.exp_zero

lemma unit_mul {n : ℕ} {A B : Mat n} (hA : Aᴴ * A = 1) (hB : Bᴴ * B = 1) :
    (A * B)ᴴ * (A * B) = 1 := by
  rw [Matrix.conjTranspose_mul, Matrix.mul_assoc, ← Matrix.mul_assoc Aᴴ A B,
    hA, Matrix.one_mul, hB]

lemma unit_pow {n : ℕ} {A : Mat n} (hA : Aᴴ * A = 1) (k : ℕ) :
    (A ^ k)ᴴ * A ^ k = 1 := by
  induction k with
  | zero => simp
  | succ m ih => simp only [pow_succ]; exact unit_mul ih hA

lemma normalizeU_of_unitary {n : ℕ} {U : Mat n} (hU : Uᴴ * U = 1) :
    normalizeU U = U := by
  rw [normalizeU, hU, Matrix.trace_one]
  have h1 : ((Fintype.card (Fin (2 ^ (n + 1))) : ℂ)).re / (2 ^ (n + 1) : ℝ) = 1 := by
    rw [Fintype.card_fin, Complex.natCast_re]
    push_cast
    rw [div_self]
    positivity
  rw [h1, Real.sqrt_one]
  norm_num


/-! ### Sign analysis of the AXY pulse times (needed for the zero-duration
identity) -/

/-- The cubic `u^3 - 12u^2 + 192` is positive on the feasibility interval
`|u| < 8cos(pi/9) - 4` of the first AXY harmonic: the bound
`8cos(pi/9) - 4` is a root of the reflected cubic, via
`cos(3*(pi/9)) = 1/2`. -/
lemma cubic_pos (u : ℝ) (hu : |u| < 8 * Real.cos (Real.pi / 9) - 4) :
    0 < u ^ 3 - 12 * u ^ 2 + 192 := by
  set c := Real.cos (Real.pi / 9) with hc
  have h3 : Real.cos (3 * (Real.pi / 9)) = 4 * c ^ 3 - 3 * c :=
    Real.cos_three_mul _
  rw [show (3 : ℝ) * (Real.pi / 9) = Real.pi / 3 by ring,
    Real.cos_pi_div_three] at h3
  set α : ℝ := 8 * c - 4 with hα
  have hcube : α ^ 3 + 12 * α ^ 2 = 192 := by
    rw [hα]
    linear_combination (128 : ℝ) * h3.symm
  have hcgt : Real.cos (Real.pi / 3) < c := by
    have hpi := Real.pi_pos
    exact Real.strictAntiOn_cos
      ⟨by positivity, by linarith⟩ ⟨by positivity, by linarith⟩ (by linarith)
  rw [Real.cos_pi_div_three] at hcgt
  have hαpos : 0 < α := by rw [hα]; linarith
  obtain ⟨hl, hr⟩ := abs_lt.mp hu
  have hfact : u ^ 3 - 12 * u ^ 2 + 192 =
      (u + α) * (u ^ 2 - (12 + α) * u + α * (12 + α)) := by
    linear_combination (-1 : ℝ) * hcube
  rw [hfact]
  apply mul_pos
  · linarith
  · nlinarith [sq_nonneg u,
      mul_pos (show (0 : ℝ) < 12 + α by linarith)
        (show (0 : ℝ) < α - u by linarith)]

/-- The feasibility bound of the first harmonic lies below `4`. -/
lemma axy_bound_lt_four : 8 * Real.cos (Real.pi / 9) - 4 ≤ 4 := by
  have := Real.cos_le_one (Real.pi / 9)
  linarith

/-- The first pulse fraction `x1` computed by `axy_pulse_times` is
non-negative for a feasible Fourier weight: for `k = 1` the `atan2`
argument has non-negative imaginary part (`sqrt(3*w2)` dominates
`(12-3fp)*w1`), and otherwise `arctan < pi/2` keeps the subtrahend
below `1/4`. -/
lemma axy_x1_nonneg (k : ℕ) (f : ℝ)
    (hf : |f * Real.pi| <
      if k = 1 then 8 * Real.cos (Real.pi / 9) - 4 else 4) :
    0 ≤ (axy_pulse_times k f).getD 1 0 := by
  have hpi := Real.pi_pos
  unfold axy_pulse_times
  simp only [List.getD_cons_succ, List.getD_cons_zero]
  by_cases hk : k = 1
  · rw [if_pos hk]
    rw [if_pos hk] at hf
    set fp := f * Real.pi with hfp
    have hflt : fp < 4 := lt_of_lt_of_le (lt_of_abs_lt hf) axy_bound_lt_four
    have hw1 : (0 : ℝ) < 4 - fp := by linarith
    have hcub : 0 < fp ^ 3 - 12 * fp ^ 2 + 192 := cubic_pos fp hf
    have hkey : ((12 - 3 * fp) * (4 - fp)) ^ 2 ≤
        3 * ((4 - fp) * (960 - 144 * fp - 12 * fp * fp + fp * fp * fp)) := by
      nlinarith [mul_pos hw1 hcub]
    have hsqrt : (12 - 3 * fp) * (4 - fp) ≤
        Real.sqrt (3 * ((4 - fp) *
          (960 - 144 * fp - 12 * fp * fp + fp * fp * fp))) :=
      Real.le_sqrt_of_sq_le hkey
    have him : 0 ≤ (3 * fp - 12) * (4 - fp) +
        Real.sqrt (3 * ((4 - fp) *
          (960 - 144 * fp - 12 * fp * fp + fp * fp * fp))) := by
      nlinarith [hsqrt]
    apply mul_nonneg
    · positivity
    · rw [atan2]
      exact Complex.arg_nonneg_iff.mpr him
  · rw [if_neg hk]
    have harct := Real.arctan_lt_pi_div_two
      (Real.sqrt (4 / (Real.sqrt (5 + f * Real.pi) - 1) *
        (4 / (Real.sqrt (5 + f * Real.pi) - 1)) - 1))
    have h2pi : (0 : ℝ) < 1 / (2 * Real.pi) := by positivity
    have hlt : 1 / (2 * Real.pi) *
        Real.arctan (Real.sqrt (4 / (Real.sqrt (5 + f * Real.pi) - 1) *
          (4 / (Real.sqrt (5 + f * Real.pi) - 1)) - 1)) <
        1 / (2 * Real.pi) * (Real.pi / 2) :=
      mul_lt_mul_of_pos_left harct h2pi
    have hpne : (Real.pi : ℝ) ≠ 0 := Real.pi_ne_zero
    have hq : 1 / (2 * Real.pi) * (Real.pi / 2) = 1 / 4 := by
      field_simp
      ring
    linarith

/-- `aptLoop` only ever appends non-negative entries to its accumulator. -/
lemma aptLoop_invariant (pt : List ℝ) (N : ℕ) (na : ℝ) :
    ∀ (count p : ℕ) (acc : List ℝ), ∃ more : List ℝ,
      aptLoop pt N na count p acc = acc ++ more ∧ ∀ x ∈ more, 0 ≤ x := by
  intro count
  induction count with
  | zero =>
    intro p acc
    exact ⟨[], (List.append_nil acc).symm, by simp⟩
  | succ c ih =>
    intro p acc
    simp only [aptLoop]
    set v : ℝ := ((p / N : ℕ) : ℝ) + pt.getD (p % N + 1) 0 - na with hv
    by_cases hnn : v ≥ 0
    · rw [if_pos hnn]
      by_cases hlen : (acc ++ [v]).length = N + 1
      · rw [if_pos hlen]
        refine ⟨[v], rfl, ?_⟩
        intro x hx
        rw [List.mem_singleton] at hx
        subst hx
        exact hnn
      · rw [if_neg hlen]
        obtain ⟨more, heq, hmore⟩ := ih (p + 1) (acc ++ [v])
        refine ⟨v :: more, by rw [heq, List.append_assoc]; rfl, ?_⟩
        intro x hx
        rcases List.mem_cons.mp hx with h | h
        · subst h; exact hnn
        · exact hmore x h
    · rw [if_neg hnn]
      by_cases hlen : acc.length = N + 1
      · rw [if_pos hlen]
        exact ⟨[], (List.append_nil acc).symm, by simp⟩
      · rw [if_neg hlen]
        exact ih (p + 1) acc

/-- The first entry of an advanced pulse schedule is `0` whenever the input
schedule starts at `0`. -/
lemma advanced_pulse_times_head (pt : List ℝ) (a : ℝ)
    (hpt0 : pt.getD 0 0 = 0) :
    (advanced_pulse_times pt a).getD 0 0 = 0 := by
  unfold advanced_pulse_times
  by_cases hz : a - (⌊a⌋ : ℝ) = 0
  · rw [if_pos hz]; exact hpt0
  · rw [if_neg hz]
    obtain ⟨more, heq, -⟩ :=
      aptLoop_invariant pt (pt.length - 2) (a - (⌊a⌋ : ℝ))
        (2 * (pt.length - 2)) 0 [0]
    rw [heq]
    rfl

/-- If the advanced pulse schedule has a second entry, that entry is
non-negative (given that the input schedule's second entry is). -/
lemma advanced_pulse_times_second_nonneg (pt : List ℝ) (a : ℝ)
    (hpt1 : 0 ≤ pt.getD 1 0) (b : ℝ) (rest : List ℝ)
    (h : (advanced_pulse_times pt a).drop 1 = b :: rest) : 0 ≤ b := by
  unfold advanced_pulse_times at h
  by_cases hz : a - (⌊a⌋ : ℝ) = 0
  · rw [if_pos hz] at h
    cases pt with
    | nil => simp at h
    | cons p0 tl =>
      simp only [List.drop_succ_cons, List.drop_zero] at h
      subst h
      simpa using hpt1
  · rw [if_neg hz] at h
    obtain ⟨more, heq, hmore⟩ :=
      aptLoop_invariant pt (pt.length - 2) (a - (⌊a⌋ : ℝ))
        (2 * (pt.length - 2)) 0 [0]
    rw [heq] at h
    have hd : ((([0] : List ℝ) ++ more) ++ [1]).drop 1 = more ++ [1] := by
      rw [List.append_assoc]
      rfl
    rw [hd] at h
    cases more with
    | nil =>
      rw [List.nil_append, List.cons.injEq] at h
      exact h.1 ▸ zero_le_one
    | cons m ms =>
      rw [List.cons_append, List.cons.injEq] at h
      exact h.1 ▸ hmore m (List.mem_cons_self m ms)


lemma normalizeU_one {n : ℕ} : normalizeU (1 : Mat n) = 1 :=
  normalizeU_of_unitary (by rw [Matrix.conjTranspose_one, Matrix.one_mul])

lemma axy_head_zero (k : ℕ) (f : ℝ) : (axy_pulse_times k f).getD 0 0 = 0 := by
  unfold axy_pulse_times
  rfl

/-- C1: with simulation duration `0` (and valid parameters: positive `w_DD`,
`k ∈ {1,3}`, `|f·π|` in the harmonic's feasible range, positive integration
parameters), both overloads of `simulate_propagator` return the identity
operator on the `2^(n+1)`-dimensional cluster space. -/
theorem simulate_propagator_zero_duration {n : ℕ} (H : Mat n)
    (Hof : ℝ → Mat n) (frequency_scale : ℝ) (integration_factor : ℕ)
    (w_DD : ℝ) (k_DD : ℕ) (f_DD : ℝ) (advance : ℝ)
    (hw : 0 < w_DD) (hk : k_DD = 1 ∨ k_DD = 3)
    (hf : |f_DD * Real.pi| <
      if k_DD = 1 then 8 * Real.cos (Real.pi / 9) - 4 else 4)
    (hfs : 0 < frequency_scale) (hif : 0 < integration_factor) :
    simulate_propagator_static H w_DD k_DD f_DD 0 advance = 1 ∧
    simulate_propagator_dynamic Hof frequency_scale integration_factor
      w_DD k_DD f_DD 0 advance = 1 := by
  have hpi := Real.pi_pos
  have ht : 0 < 2 * Real.pi / w_DD := by positivity
  constructor
  · -- static overload
    simp only [simulate_propagator_static]
    rw [if_neg (not_le.mpr ht)]
    have hrem0 : (0 : ℝ) -
        (⌊(0 : ℝ) / (2 * Real.pi / w_DD)⌋₊ : ℝ) * (2 * Real.pi / w_DD) = 0 := by
      rw [zero_div, Nat.floor_zero]
      norm_num
    rw [hrem0]
    have hadv0 : (advanced_pulse_times (axy_pulse_times k_DD f_DD)
        (advance / (2 * Real.pi / w_DD) -
          (⌊advance / (2 * Real.pi / w_DD)⌋ : ℝ))).getD 0 0 = 0 :=
      advanced_pulse_times_head _ _ (axy_head_zero k_DD f_DD)
    cases hdrop : (advanced_pulse_times (axy_pulse_times k_DD f_DD)
        (advance / (2 * Real.pi / w_DD) -
          (⌊advance / (2 * Real.pi / w_DD)⌋ : ℝ))).drop 1 with
    | nil =>
      rw [remLoop]
      by_cases hpar : pulseCountInit (axy_pulse_times k_DD f_DD)
          (advance / (2 * Real.pi / w_DD) -
            (⌊advance / (2 * Real.pi / w_DD)⌋ : ℝ)) % 2 = 0
      · rw [if_neg (fun h => h hpar), if_neg (fun h => h hpar)]
        exact normalizeU_one
      · rw [if_pos hpar, if_pos hpar, Matrix.mul_one, Xflip_mul_self]
        exact normalizeU_one
    | cons b rest =>
      have hb : 0 ≤ b :=
        advanced_pulse_times_second_nonneg _ _
          (axy_x1_nonneg k_DD f_DD hf) b rest hdrop
      have hblt : ¬(b * (2 * Real.pi / w_DD) < 0) :=
        not_lt.mpr (mul_nonneg hb ht.le)
      rw [remLoop, if_neg hblt, hadv0]
      rw [show (0 : ℝ) - 0 * (2 * Real.pi / w_DD) = 0 from by ring, sexp_zero,
        Matrix.one_mul]
      by_cases hpar : pulseCountInit (axy_pulse_times k_DD f_DD)
          (advance / (2 * Real.pi / w_DD) -
            (⌊advance / (2 * Real.pi / w_DD)⌋ : ℝ)) % 2 = 0
      · rw [if_neg (fun h => h hpar), if_neg (fun h => h hpar)]
        exact normalizeU_one
      · rw [if_pos hpar, if_pos hpar, Matrix.mul_one, Xflip_mul_self]
        exact normalizeU_one
  · -- dynamic overload
    simp only [simulate_propagator_dynamic, simulate_propagator_dynamic_aux]
    have hsteps : ⌊(0 : ℝ) /
        (1 / (frequency_scale * (integration_factor : ℝ))) + 0.5⌋₊ = 0 := by
      rw [zero_div, zero_add]
      exact Nat.floor_eq_zero.mpr (by norm_num)
    rw [hsteps]
    simp only [List.range_zero, List.foldl_nil]
    by_cases hpar : pulseCountInit (axy_pulse_times k_DD f_DD)
        (advance / (2 * Real.pi / w_DD) -
          (⌊advance / (2 * Real.pi / w_DD)⌋ : ℝ)) % 2 = 0
    · rw [if_neg (fun h => h hpar), if_neg (fun h => h hpar)]
      exact normalizeU_one
    · rw [if_pos hpar, if_pos hpar, Matrix.mul_one, Xflip_mul_self]
      exact normalizeU_one

/-- Closed witness for C1 at `n = 0`, `H = 0`, `w_DD = 1`, `k = 3`,
`f = 0`, zero advance. -/
theorem simulate_propagator_zero_duration_witness :
    (0 : ℝ) < 1 ∧
    simulate_propagator_static (0 : Mat 0) 1 3 0 0 0 = 1 ∧
    simulate_propagator_dynamic (fun _ => (0 : Mat 0)) 1 1 1 3 0 0 0 = 1 := by
  have h := simulate_propagator_zero_duration (0 : Mat 0) (fun _ => 0) 1 1 1 3
    0 0 one_pos (Or.inr rfl) (by simp) one_pos one_pos
  exact ⟨one_pos, h.1, h.2⟩


/-! ### C2: exact unitarity of the simulated propagators -/

lemma unit_one {n : ℕ} : ((1 : Mat n))ᴴ * 1 = 1 := by
  rw [Matrix.conjTranspose_one, Matrix.one_mul]

lemma ite_unitary {n : ℕ} (p : Prop) [Decidable p] {A B : Mat n}
    (hA : Aᴴ * A = 1) (hB : Bᴴ * B = 1) :
    (if p then A else B)ᴴ * (if p then A else B) = 1 := by
  by_cases h : p
  · rw [if_pos h]
    exact hA
  · rw [if_neg h]
    exact hB

lemma normalizeU_unitary {n : ℕ} {U : Mat n} (hU : Uᴴ * U = 1) :
    (normalizeU U)ᴴ * normalizeU U = 1 := by
  rw [normalizeU_of_unitary hU]; exact hU

lemma U0_unitary {n : ℕ} (c : ℕ) :
    (if c % 2 ≠ 0 then Xflip n * 1 else 1)ᴴ *
      (if c % 2 ≠ 0 then Xflip n * 1 else 1) = 1 :=
  ite_unitary _ (by rw [Matrix.mul_one]; exact Xflip_unitary n) unit_one

lemma periodLoop_unitary {n : ℕ} {H : Mat n} (hH : H.IsHermitian) (t : ℝ)
    (L : List ℝ) (prev : ℝ) {U : Mat n} (hU : Uᴴ * U = 1) :
    (periodLoop H t L prev U)ᴴ * periodLoop H t L prev U = 1 := by
  induction L generalizing prev U with
  | nil =>
    rw [periodLoop]
    exact hU
  | cons a rest ih =>
    rw [periodLoop]
    exact ih a (unit_mul (unit_mul (Xflip_unitary n) (sexp_unitary hH _)) hU)

lemma remLoop_unitary {n : ℕ} {H : Mat n} (hH : H.IsHermitian) (t r : ℝ)
    (L : List ℝ) (prev : ℝ) {U : Mat n} (c : ℕ) (hU : Uᴴ * U = 1) :
    ((remLoop H t r L prev U c).1)ᴴ * (remLoop H t r L prev U c).1 = 1 := by
  induction L generalizing prev U c with
  | nil =>
    rw [remLoop]
    exact hU
  | cons a rest ih =>
    rw [remLoop]
    by_cases hlt : a * t < r
    · rw [if_pos hlt]
      exact ih a (c + 1) (unit_mul (unit_mul (Xflip_unitary n) (sexp_unitary hH _)) hU)
    · rw [if_neg hlt]
      exact unit_mul (sexp_unitary hH _) hU

lemma dynStep_unitary {n : ℕ} {Hof : ℝ → Mat n}
    (hHof : ∀ u, (Hof u).IsHermitian) (pulses : List ℝ)
    (t dt stime adv : ℝ) (st : Mat n × ℕ) (i : ℕ)
    (hU : (st.1)ᴴ * st.1 = 1) :
    ((dynStep Hof pulses t dt stime adv st i).1)ᴴ *
      (dynStep Hof pulses t dt stime adv st i).1 = 1 := by
  simp only [dynStep]
  cases hfind : (List.range' 1 (pulses.length - 2)).find?
      (fun p => decide (pulses.getD p 0 * t > ((i : ℝ) + 0.5) * dt + adv ∧
        pulses.getD p 0 * t < ((i : ℝ) + 0.5) * dt + adv + dt)) with
  | none =>
    dsimp only
    by_cases hlt : ((i : ℝ) + 0.5) * dt + adv + dt < stime
    · rw [if_pos hlt]
      exact unit_mul (sexp_unitary (hHof _) _) hU
    · rw [if_neg hlt]
      exact unit_mul (sexp_unitary (hHof _) _) hU
  | some p =>
    dsimp only
    exact unit_mul (sexp_unitary (hHof _) _)
      (unit_mul (Xflip_unitary n) (unit_mul (sexp_unitary (hHof _) _) hU))

lemma foldl_dynStep_unitary {n : ℕ} {Hof : ℝ → Mat n}
    (hHof : ∀ u, (Hof u).IsHermitian) (pulses : List ℝ)
    (t dt stime adv : ℝ) (L : List ℕ) {st : Mat n × ℕ}
    (hU : (st.1)ᴴ * st.1 = 1) :
    ((L.foldl (dynStep Hof pulses t dt stime adv) st).1)ᴴ *
      (L.foldl (dynStep Hof pulses t dt stime adv) st).1 = 1 := by
  induction L generalizing st with
  | nil => exact hU
  | cons a rest ih =>
    rw [List.foldl_cons]
    exact ih (dynStep_unitary hHof pulses t dt stime adv st a hU)

/-- C2: for every valid input (`k ∈ {1,3}`, feasible `|f·π|`, non-negative
duration) and Hermitian cluster Hamiltonians, the propagator returned by
either overload of `simulate_propagator` satisfies `Uᴴ·U = 1` exactly: it is
a product of exponentials of `-i` times Hermitian matrices and of the
Hermitian unitary flip pulse, and the final normalization divides a unitary
by `1`, leaving unitarity intact. -/
theorem simulate_propagator_unitary {n : ℕ} (H : Mat n) (Hof : ℝ → Mat n)
    (hH : H.IsHermitian) (hHof : ∀ u, (Hof u).IsHermitian)
    (frequency_scale : ℝ) (integration_factor : ℕ) (w_DD : ℝ) (k_DD : ℕ)
    (f_DD : ℝ) (simulation_time advance : ℝ)
    (hk : k_DD = 1 ∨ k_DD = 3)
    (hf : |f_DD * Real.pi| <
      if k_DD = 1 then 8 * Real.cos (Real.pi / 9) - 4 else 4)
    (hdur : 0 ≤ simulation_time) :
    (simulate_propagator_static H w_DD k_DD f_DD simulation_time advance)ᴴ *
      simulate_propagator_static H w_DD k_DD f_DD simulation_time advance
        = 1 ∧
    (simulate_propagator_dynamic Hof frequency_scale integration_factor
        w_DD k_DD f_DD simulation_time advance)ᴴ *
      simulate_propagator_dynamic Hof frequency_scale integration_factor
        w_DD k_DD f_DD simulation_time advance = 1 := by
  constructor
  · simp only [simulate_propagator_static]
    apply normalizeU_unitary
    apply ite_unitary
    · apply unit_mul (Xflip_unitary n)
      apply remLoop_unitary hH
      apply ite_unitary
      · exact unit_mul
          (unit_pow
            (unit_mul (Xflip_unitary n)
              (periodLoop_unitary hH _ _ _ unit_one)) _)
          (U0_unitary _)
      · exact U0_unitary _
    · apply remLoop_unitary hH
      apply ite_unitary
      · exact unit_mul
          (unit_pow
            (unit_mul (Xflip_unitary n)
              (periodLoop_unitary hH _ _ _ unit_one)) _)
          (U0_unitary _)
      · exact U0_unitary _
  · simp only [simulate_propagator_dynamic, simulate_propagator_dynamic_aux]
    apply normalizeU_unitary
    apply ite_unitary
    · exact unit_mul (Xflip_unitary n)
        (foldl_dynStep_unitary hHof _ _ _ _ _ _ (U0_unitary _))
    · exact foldl_dynStep_unitary hHof _ _ _ _ _ _ (U0_unitary _)

/-- Closed witness for C2 at `n = 0`, zero Hamiltonians, `w_DD = 1`,
`k = 3`, `f = 0`, duration `1`, zero advance. -/
theorem simulate_propagator_unitary_witness :
    (0 : ℝ) ≤ 1 ∧
    (simulate_propagator_static (0 : Mat 0) 1 3 0 1 0)ᴴ *
      simulate_propagator_static (0 : Mat 0) 1 3 0 1 0 = 1 ∧
    (simulate_propagator_dynamic (fun _ => (0 : Mat 0)) 1 1 1 3 0 1 0)ᴴ *
      simulate_propagator_dynamic (fun _ => (0 : Mat 0)) 1 1 1 3 0 1 0 = 1 := by
  have h := simulate_propagator_unitary (0 : Mat 0) (fun _ => 0)
    Matrix.isHermitian_zero (fun _ => Matrix.isHermitian_zero) 1 1 1 3 0 1 0
    (Or.inr rfl) (by simp) zero_le_one
  exact ⟨zero_le_one, h.1, h.2⟩


/-! ### C4: pulse accounting of the dynamic integration loop -/

/-- One step of the dynamic loop increments `pulse_count` exactly when its
window `(t, t+dt)` contains at least one pulse marker (the first such marker
found); it never increments more than once per step. -/
lemma dynStep_count {n : ℕ} (Hof : ℝ → Mat n) (P : List ℝ)
    (t dt T a : ℝ) (st : Mat n × ℕ) (i : ℕ) :
    (dynStep Hof P t dt T a st i).2 = st.2 +
      (if ((List.range' 1 (P.length - 2)).find?
          (fun p => decide (P.getD p 0 * t > ((i : ℝ) + 0.5) * dt + a ∧
            P.getD p 0 * t < ((i : ℝ) + 0.5) * dt + a + dt))).isSome
        then 1 else 0) := by
  simp only [dynStep]
  cases hfind : (List.range' 1 (P.length - 2)).find?
      (fun p => decide (P.getD p 0 * t > ((i : ℝ) + 0.5) * dt + a ∧
        P.getD p 0 * t < ((i : ℝ) + 0.5) * dt + a + dt)) with
  | none =>
    by_cases hlt : ((i : ℝ) + 0.5) * dt + a + dt < T
    · rw [if_pos hlt]; simp
    · rw [if_neg hlt]; simp
  | some p => simp

/-- The count component of the dynamic integration fold: initial count plus
the number of steps whose window contains a marker. -/
lemma foldl_dynStep_count {n : ℕ} (Hof : ℝ → Mat n) (P : List ℝ)
    (t dt T a : ℝ) (L : List ℕ) (st : Mat n × ℕ) :
    (L.foldl (dynStep Hof P t dt T a) st).2 = st.2 +
      L.countP (fun i : ℕ => ((List.range' 1 (P.length - 2)).find?
        (fun p => decide (P.getD p 0 * t > ((i : ℝ) + 0.5) * dt + a ∧
          P.getD p 0 * t < ((i : ℝ) + 0.5) * dt + a + dt))).isSome) := by
  induction L generalizing st with
  | nil => simp
  | cons x xs ih =>
    simp only [List.foldl_cons, List.countP_cons, ih, dynStep_count]
    omega

/-- C4 (amended): in the dynamic-control-field overload the returned
`pulse_count` equals the initial parity count plus the number of
*integration steps* whose window `(t, t+dt)` contains at least one pulse
marker — each such step applies the flip exactly once, at the first
contained marker.  A step spanning several markers still flips only once
(there is no catch-up loop in the code), so markers inside the simulated
duration can be skipped. -/
theorem dynamic_flip_count {n : ℕ} (Hof : ℝ → Mat n) (frequency_scale : ℝ)
    (integration_factor : ℕ) (w_DD : ℝ) (k_DD : ℕ) (f_DD : ℝ)
    (simulation_time advance : ℝ) :
    (simulate_propagator_dynamic_aux Hof frequency_scale integration_factor
        w_DD k_DD f_DD simulation_time advance).2 =
      pulseCountInit (axy_pulse_times k_DD f_DD)
        (advance / (2 * Real.pi / w_DD) -
          (⌊advance / (2 * Real.pi / w_DD)⌋ : ℝ)) +
      (List.range ⌊simulation_time /
          (1 / (frequency_scale * (integration_factor : ℝ))) + 0.5⌋₊).countP
        (fun i : ℕ => ((List.range' 1 ((axy_pulse_times k_DD f_DD).length - 2)).find?
          (fun p => decide ((axy_pulse_times k_DD f_DD).getD p 0 *
              (2 * Real.pi / w_DD) >
              ((i : ℝ) + 0.5) * (1 / (frequency_scale * (integration_factor : ℝ))) +
                advance ∧
            (axy_pulse_times k_DD f_DD).getD p 0 * (2 * Real.pi / w_DD) <
              ((i : ℝ) + 0.5) * (1 / (frequency_scale * (integration_factor : ℝ))) +
                advance +
                (1 / (frequency_scale * (integration_factor : ℝ)))))).isSome) := by
  simp only [simulate_propagator_dynamic_aux]
  rw [foldl_dynStep_count]


/-- First pulse-fraction denominator term of `axy_pulse_times 3 0`. -/
def exQ1 : ℝ := 4 / (Real.sqrt (5 + 0 * Real.pi) - 1)

/-- Second pulse-fraction denominator term of `axy_pulse_times 3 0`. -/
def exQ2 : ℝ := 4 / (Real.sqrt (5 + 0 * Real.pi) + 1)

/-- First pulse fraction of `axy_pulse_times 3 0`. -/
def exX1 : ℝ :=
  1 / 4 - 1 / (2 * Real.pi) * Real.arctan (Real.sqrt (exQ1 * exQ1 - 1))

/-- Second pulse fraction of `axy_pulse_times 3 0`. -/
def exX2 : ℝ :=
  1 / 4 - 1 / (2 * Real.pi) * Real.arctan (Real.sqrt (exQ2 * exQ2 - 1))

lemma quarter_sub_arctan_bounds (y : ℝ) :
    0 < 1 / 4 - 1 / (2 * Real.pi) * Real.arctan (Real.sqrt y) ∧
    1 / 4 - 1 / (2 * Real.pi) * Real.arctan (Real.sqrt y) ≤ 1 / 4 := by
  have hpi := Real.pi_pos
  have h2 := Real.arctan_lt_pi_div_two (Real.sqrt y)
  have h0 : 0 ≤ Real.arctan (Real.sqrt y) := by
    have := Real.arctan_strictMono.monotone (Real.sqrt_nonneg y)
    rwa [Real.arctan_zero] at this
  have h2pi : (0 : ℝ) < 1 / (2 * Real.pi) := by positivity
  constructor
  · have hmul := mul_lt_mul_of_pos_left h2 h2pi
    have hq : 1 / (2 * Real.pi) * (Real.pi / 2) = 1 / 4 := by
      field_simp
      ring
    linarith
  · nlinarith [mul_nonneg h2pi.le h0]

lemma exX1_pos : 0 < exX1 := by
  unfold exX1
  exact (quarter_sub_arctan_bounds (exQ1 * exQ1 - 1)).1

lemma exX1_le : exX1 ≤ 1 / 4 := by
  unfold exX1
  exact (quarter_sub_arctan_bounds (exQ1 * exQ1 - 1)).2

lemma exX2_pos : 0 < exX2 := by
  unfold exX2
  exact (quarter_sub_arctan_bounds (exQ2 * exQ2 - 1)).1

lemma exX2_le : exX2 ≤ 1 / 4 := by
  unfold exX2
  exact (quarter_sub_arctan_bounds (exQ2 * exQ2 - 1)).2

/-- Explicit form of `axy_pulse_times 3 0`. -/
lemma axy30_eq : axy_pulse_times 3 0 =
    [0, exX1, exX2, 0.25, 0.5 - exX2, 0.5 - exX1, 0.5 + exX1, 0.5 + exX2,
      0.75, 1 - exX2, 1 - exX1, 1] := by
  unfold axy_pulse_times exX1 exX2 exQ1 exQ2
  have h31 : ¬((3 : ℕ) = 1) := by decide
  simp only [if_neg h31]


/-- For an angle `θ ∈ [0, π/2)` and `q = 1/cos θ`, the C expression
`atan(sqrt(q*q - 1))` recovers `θ`. -/
lemma arctan_sqrt_inv_cos (θ : ℝ) (h0 : 0 ≤ θ) (hθ : θ < Real.pi / 2)
    (q : ℝ) (hq : q = 1 / Real.cos θ) :
    Real.arctan (Real.sqrt (q * q - 1)) = θ := by
  have hpi := Real.pi_pos
  have hcpos : 0 < Real.cos θ :=
    Real.cos_pos_of_mem_Ioo ⟨by linarith, hθ⟩
  have htan : q * q - 1 = Real.tan θ ^ 2 := by
    rw [hq, Real.tan_eq_sin_div_cos, div_pow, Real.sin_sq]
    field_simp
    ring
  rw [htan, Real.sqrt_sq (Real.tan_nonneg_of_nonneg_of_le_pi_div_two h0 hθ.le)]
  exact Real.arctan_tan (by linarith) hθ

lemma one_lt_sqrt_five : 1 < Real.sqrt 5 := by
  nlinarith [Real.sq_sqrt (show (0 : ℝ) ≤ 5 by norm_num), Real.sqrt_nonneg 5]

/-- `cos(2π/5) = (√5 - 1)/4`, from the double-angle formula and
`cos(π/5) = (1 + √5)/4`. -/
lemma cos_two_pi_div_five : Real.cos (2 * Real.pi / 5) = (Real.sqrt 5 - 1) / 4 := by
  have h := Real.cos_two_mul (Real.pi / 5)
  rw [Real.cos_pi_div_five] at h
  rw [show 2 * Real.pi / 5 = 2 * (Real.pi / 5) by ring, h]
  have h5 : Real.sqrt 5 ^ 2 = 5 := Real.sq_sqrt (by norm_num)
  linear_combination (1 / 8 : ℝ) * h5

/-- The second AXY pulse fraction at `k = 3`, `f = 0` is exactly `3/20`:
`4/(√5+1) = 1/cos(π/5)`, so the arctan is `π/5`. -/
lemma exX2_eq : exX2 = 3 / 20 := by
  have hpi := Real.pi_pos
  have hq : exQ2 = 1 / Real.cos (Real.pi / 5) := by
    unfold exQ2
    rw [show (5 : ℝ) + 0 * Real.pi = 5 by ring, Real.cos_pi_div_five,
      one_div_div]
    congr 1
    ring
  have harctan := arctan_sqrt_inv_cos (Real.pi / 5) (by positivity)
    (by linarith) exQ2 hq
  unfold exX2
  rw [harctan]
  have hpne : Real.pi ≠ 0 := Real.pi_ne_zero
  field_simp
  ring

/-- The first AXY pulse fraction at `k = 3`, `f = 0` is exactly `1/20`:
`4/(√5-1) = 1/cos(2π/5)`, so the arctan is `2π/5`. -/
lemma exX1_eq : exX1 = 1 / 20 := by
  have hpi := Real.pi_pos
  have hq : exQ1 = 1 / Real.cos (2 * Real.pi / 5) := by
    unfold exQ1
    rw [show (5 : ℝ) + 0 * Real.pi = 5 by ring, cos_two_pi_div_five,
      one_div_div]
  have harctan := arctan_sqrt_inv_cos (2 * Real.pi / 5) (by positivity)
    (by linarith) exQ1 hq
  unfold exX1
  rw [harctan]
  have hpne : Real.pi ≠ 0 := Real.pi_ne_zero
  field_simp
  ring

/-- The full AXY pulse schedule at `k = 3`, `f = 0`, in closed rational
form. -/
lemma axy30_rat : axy_pulse_times 3 0 =
    [0, 1 / 20, 3 / 20, 1 / 4, 7 / 20, 9 / 20, 11 / 20, 13 / 20, 3 / 4,
      17 / 20, 19 / 20, 1] := by
  rw [axy30_eq, exX1_eq, exX2_eq]
  norm_num

/-- In the concrete run below — `w_DD = 2π` (`t_DD = 1`), `k = 3`, `f = 0`,
`frequency_scale = 2π` (equal to its lower bound `w_DD`, as computed by the
source when no control field or nuclear frequency exceeds it),
`integration_factor = 1` (so `dt = 1/(2π)`), duration `1`, zero advance —
the loop runs `⌊2π + 0.5⌋ = 6` integration steps, each of whose windows
`((i+0.5)/(2π), (i+1.5)/(2π))` contains at least one pulse marker, so the
flip pulse is applied exactly `6` times in total. -/
lemma dyn_count_six :
    (simulate_propagator_dynamic_aux (fun _ => (0 : Mat 0)) (2 * Real.pi) 1
      (2 * Real.pi) 3 0 1 0).2 = 6 := by
  have hpi := Real.pi_pos
  have hgt3 := Real.pi_gt_three
  have hlt315 := Real.pi_lt_d2
  have htdd : 2 * Real.pi / (2 * Real.pi) = 1 := div_self (by positivity)
  have hxlo : (10 : ℝ) / 63 < 1 / (2 * Real.pi) := by
    rw [div_lt_div_iff (by norm_num) (by positivity)]
    nlinarith
  have hxhi : 1 / (2 * Real.pi) < 1 / 6 := by
    rw [div_lt_div_iff (by positivity) (by norm_num)]
    nlinarith
  simp only [simulate_propagator_dynamic_aux]
  rw [foldl_dynStep_count]
  simp only [axy30_rat, htdd, Nat.cast_one, mul_one, one_mul, div_one,
    one_div_one_div, zero_div, Int.floor_zero, Int.cast_zero, sub_zero,
    add_zero]
  have hsteps : ⌊2 * Real.pi + 0.5⌋₊ = 6 := by
    rw [Nat.floor_eq_iff (by positivity)]
    constructor
    · push_cast
      nlinarith
    · push_cast
      nlinarith
  rw [hsteps]
  have hc0 : pulseCountInit
      [0, 1 / 20, 3 / 20, (1 / 4 : ℝ), 7 / 20, 9 / 20, 11 / 20, 13 / 20,
        3 / 4, 17 / 20, 19 / 20, 1] 0 = 0 := by
    unfold pulseCountInit
    rw [show (([0, 1 / 20, 3 / 20, (1 / 4 : ℝ), 7 / 20, 9 / 20, 11 / 20,
        13 / 20, 3 / 4, 17 / 20, 19 / 20, 1].drop 1).take
          ([0, 1 / 20, 3 / 20, (1 / 4 : ℝ), 7 / 20, 9 / 20, 11 / 20,
            13 / 20, 3 / 4, 17 / 20, 19 / 20, 1].length - 2)) =
      [1 / 20, 3 / 20, (1 / 4 : ℝ), 7 / 20, 9 / 20, 11 / 20, 13 / 20,
        3 / 4, 17 / 20, 19 / 20] from rfl]
    rw [List.takeWhile_cons]
    rw [decide_eq_false (by norm_num : ¬((1 : ℝ) / 20 < 0))]
    rfl
  rw [hc0]
  simp only [zero_add]
  conv_rhs => rw [← List.length_range 6]
  rw [List.countP_eq_length]
  intro i hi
  rw [List.mem_range] at hi
  interval_cases i
  · simp only [List.find?_isSome]
    refine ⟨2, by decide, ?_⟩
    simp only [List.getD_cons_succ, List.getD_cons_zero, decide_eq_true_eq]
    push_cast
    constructor <;> linarith
  · simp only [List.find?_isSome]
    refine ⟨3, by decide, ?_⟩
    simp only [List.getD_cons_succ, List.getD_cons_zero, decide_eq_true_eq]
    push_cast
    constructor <;> linarith
  · simp only [List.find?_isSome]
    refine ⟨5, by decide, ?_⟩
    simp only [List.getD_cons_succ, List.getD_cons_zero, decide_eq_true_eq]
    push_cast
    constructor <;> linarith
  · simp only [List.find?_isSome]
    refine ⟨7, by decide, ?_⟩
    simp only [List.getD_cons_succ, List.getD_cons_zero, decide_eq_true_eq]
    push_cast
    constructor <;> linarith
  · simp only [List.find?_isSome]
    refine ⟨8, by decide, ?_⟩
    simp only [List.getD_cons_succ, List.getD_cons_zero, decide_eq_true_eq]
    push_cast
    constructor <;> linarith
  · simp only [List.find?_isSome]
    refine ⟨10, by decide, ?_⟩
    simp only [List.getD_cons_succ, List.getD_cons_zero, decide_eq_true_eq]
    push_cast
    constructor <;> linarith

/-- C4 counterexample at reachable parameters: `w_DD = 2π` (`t_DD = 1`),
`k = 3`, `f = 0`, `frequency_scale = 2π` — satisfying the source invariant
`frequency_scale ≥ w_DD` with equality, attained when no control field or
nuclear Zeeman frequency exceeds `w_DD` — `integration_factor = 1`,
duration `1`, zero advance.  The ten pulse markers sit at times
`1/20, 3/20, 1/4, 7/20, 9/20, 11/20, 13/20, 3/4, 17/20, 19/20` (the marker
times equal the schedule entries since `t_DD = 1`), all strictly inside the
simulated duration `(0, 1)` and pairwise distinct; yet the flip pulse is
applied only `6` times: the first marker `1/20` precedes the first step
window `(0.5/(2π), 1.5/(2π)) ≈ (0.0796, 0.2387)` and is silently skipped,
and each window spanning two markers (e.g. `1/4` and `7/20` both lie in
the second window `(1.5/(2π), 2.5/(2π)) ≈ (0.2387, 0.3979)`) flips only
once.
This refutes "every pulse marker whose time falls within the simulated
duration causes exactly one application of the central-spin flip". -/
theorem dynamic_pulse_skip_counterexample :
    (simulate_propagator_dynamic_aux (fun _ => (0 : Mat 0)) (2 * Real.pi) 1
      (2 * Real.pi) 3 0 1 0).2 = 6 ∧
    2 * Real.pi ≤ 2 * Real.pi ∧
    2 * Real.pi / (2 * Real.pi) = 1 ∧
    axy_pulse_times 3 0 =
      [0, 1 / 20, 3 / 20, 1 / 4, 7 / 20, 9 / 20, 11 / 20, 13 / 20, 3 / 4,
        17 / 20, 19 / 20, 1] ∧
    List.Pairwise (· < ·) [(1 : ℝ) / 20, 3 / 20, 1 / 4, 7 / 20, 9 / 20,
      11 / 20, 13 / 20, 3 / 4, 17 / 20, 19 / 20] ∧
    (0 : ℝ) < 1 / 20 ∧ (19 : ℝ) / 20 < 1 := by
  have hpi := Real.pi_pos
  refine ⟨dyn_count_six, le_refl _, div_self (by positivity), axy30_rat,
    ?_, by norm_num, by norm_num⟩
  norm_num [List.pairwise_cons]

/-! ### C9: the `U_int` addressability guard (`nv-control.cpp` 185-207,
`nv-math.cpp` 754-777) -/

/-- C `round`: round half away from zero. -/
def c_round (x : ℝ) : ℤ := if x ≥ 0 then ⌊x + 1 / 2⌋ else -⌊-x + 1 / 2⌋

/-- The `nv_system` fields consulted by the `U_int` guard: the nuclei and
their clustering. -/
structure nv_system where
  nuclei : List spin
  clusters : List (List ℕ)

/-- C++ `get_cluster_containing_index`: index of the first cluster
containing the given nucleus index. -/
def get_cluster_containing_index (nv : nv_system) (index : ℕ) : ℕ :=
  nv.clusters.findIdx (fun cl => decide (index ∈ cl))

/-- The cluster containing the target nucleus. -/
def clusterOf (nv : nv_system) (target : ℕ) : List ℕ :=
  nv.clusters.getD (get_cluster_containing_index nv target) []

/-- `spins = nv.clusters.at(cluster).size() + 1`. -/
def spinsOf (nv : nv_system) (target : ℕ) : ℕ := (clusterOf nv target).length + 1

/-- C++ `U_int(nv, target, nv_axis, target_azimuth, rotation_angle, exact)`
(`nv-control.cpp`; the `nv-math.cpp` overload has the same exact-branch and
addressability guard).  The claim under scrutiny concerns only the
control-flow guard, so the value of the `exact` branch (`act(G, ...)`) and
the post-guard continuation are abstracted as the parameters `exactRes` and
`rest`; the guard itself — returning the `2^spins`-dimensional identity when
`round(4*dot(pos, ao)) == 0` — is translated from the source. -/
def U_int (nv : nv_system) (target : ℕ) (exact : Bool)
    (exactRes rest : Matrix (Fin (2 ^ spinsOf nv target))
      (Fin (2 ^ spinsOf nv target)) ℂ) :
    Matrix (Fin (2 ^ spinsOf nv target)) (Fin (2 ^ spinsOf nv target)) ℂ :=
  if exact then exactRes
  else if c_round (4 * dot3 ((nv.nuclei.getD target spinDefault).pos) ao) = 0
    then 1
  else rest

/-- C9: with `exact = false` and a target whose hyperfine coupling has no
component perpendicular to the NV axis (`round(4*dot(pos, ao)) = 0`),
`U_int` does not abort: it returns the identity operator of dimension
`2^(cluster size + 1)` and the computation continues. -/
theorem U_int_no_perp_identity (nv : nv_system) (target : ℕ)
    (exactRes rest : Matrix (Fin (2 ^ spinsOf nv target))
      (Fin (2 ^ spinsOf nv target)) ℂ)
    (h : c_round (4 * dot3 ((nv.nuclei.getD target spinDefault).pos) ao) = 0) :
    U_int nv target false exactRes rest = 1 := by
  unfold U_int
  rw [if_neg (by simp), if_pos h]

/-- Nucleus lying in the plane perpendicular to `ao`. -/
def wSpin : spin := ⟨fun i => ![1, 1, -2] i, 1, fun _ => 0⟩

/-- Closed witness for C9: a single-nucleus system at position `(1,1,-2)`
(so `dot(pos, ao) = 0`). -/
theorem U_int_no_perp_identity_witness :
    c_round (4 * dot3 ((nv_system.mk [wSpin] [[0]]).nuclei.getD 0
      spinDefault).pos ao) = 0 ∧
    U_int (nv_system.mk [wSpin] [[0]]) 0 false 0 0 = 1 := by
  have h : c_round (4 * dot3 ((nv_system.mk [wSpin] [[0]]).nuclei.getD 0
      spinDefault).pos ao) = 0 := by
    have hd : dot3 ((nv_system.mk [wSpin] [[0]]).nuclei.getD 0
        spinDefault).pos ao = 0 := by
      simp [dot3, wSpin, ao]
      norm_num
    rw [hd]
    simp [c_round]
    norm_num [Int.floor_eq_iff]
  exact ⟨h, U_int_no_perp_identity _ _ _ _ h⟩

end NV
